import Mathlib

/-!
Verification of the unified-diff model builder and token-budget optimizer
(`app/utils/diff_parser.py` and `app/utils/token_counter.py`).

Strings are modelled as lists of characters (`Str`); line separators are
the newline character.  Every Python function of the core is translated
into a computable Lean definition with the same name where Lean allows it.
-/

set_option maxHeartbeats 1000000

namespace K8sReviewer

abbrev Str := List Char

/-- Does the pattern occur as a leading segment of the string?  Models
`re` patterns of the shape `^lit...` and Python's startswith. -/
def begins : Str → Str → Bool
  | [], _ => true
  | _ :: _, [] => false
  | p :: ps, c :: cs => p == c && begins ps cs

/-- Does the pattern occur anywhere in the string?  Used for the
`(.*) b/(.*)` part of the `diff --git` header pattern. -/
def containsSub (pat : Str) : Str → Bool
  | [] => begins pat []
  | c :: cs => begins pat (c :: cs) || containsSub pat cs

/-- Python `str.splitlines` restricted to the newline separator:
`"a\nb\n"` gives `["a", "b"]` (no trailing empty line). -/
def splitLinesC : Str → List Str
  | [] => []
  | c :: cs =>
    if c = '\n' then [] :: splitLinesC cs
    else
      match splitLinesC cs with
      | [] => [[c]]
      | l :: ls => (c :: l) :: ls

/-- Python `"\n".join`. -/
def joinLines : List Str → Str
  | [] => []
  | [l] => l
  | l :: l' :: ls => l ++ '\n' :: joinLines (l' :: ls)

/-- Kind of a diff line (`line_type` in the source). -/
inductive LineKind where
  | context
  | addition
  | deletion
deriving DecidableEq

/-- `DiffLine` from `diff_parser.py`. -/
structure DiffLine where
  content : Str
  kind : LineKind
  oldNum : Option Nat
  newNum : Option Nat
deriving DecidableEq

/-- `DiffHunk` from `diff_parser.py`. -/
structure DiffHunk where
  oldStart : Nat
  oldCount : Nat
  newStart : Nat
  newCount : Nat
  lines : List DiffLine
deriving DecidableEq

/-- `DiffFile` from `diff_parser.py`. -/
structure DiffFile where
  oldPath : Str
  newPath : Str
  hunks : List DiffHunk
deriving DecidableEq

/-- `DiffFile.get_path`: the new path unless it is `/dev/null`. -/
def DiffFile.get_path (f : DiffFile) : Str :=
  if f.newPath = "/dev/null".data then f.oldPath else f.newPath

/-- Decimal digit character test, as in the `\d` regex class. -/
def isDigitChar (c : Char) : Bool := 48 ≤ c.toNat && c.toNat ≤ 57

/-- Numeric value of a digit string (most significant first). -/
def valDigits (ds : Str) : Nat :=
  ds.foldl (fun a c => a * 10 + (c.toNat - 48)) 0

/-- Read a maximal run of digits from the front (`\d+` with maximal munch). -/
def readNat (s : Str) : Option (Nat × Str) :=
  let ds := s.takeWhile isDigitChar
  if ds = [] then none else some (valDigits ds, s.dropWhile isDigitChar)

/-- Read the optional `,(\d+)` count suffix; the count defaults to 1 when
the comma is absent.  A comma not followed by digits fails the whole
hunk-header match, exactly as the regex does. -/
def readCount (s : Str) : Option (Nat × Str) :=
  match s with
  | ',' :: r =>
    match readNat r with
    | some (b, r2) => some (b, r2)
    | none => none
  | _ => some (1, s)

/-- Match `^diff --git a/(.*) b/(.*)$` (captures unused by the parser). -/
def isFileHeader (line : Str) : Bool :=
  begins ("diff --git a/".data) line && containsSub (" b/".data) (line.drop 13)

/-- Match `^--- (?:a/)?(.*?)(?:\t.*)?$` and return the captured path. -/
def matchOldFile (line : Str) : Option Str :=
  if begins ("--- ".data) line then
    let rest := line.drop 4
    let rest2 := if begins ("a/".data) rest then rest.drop 2 else rest
    some (rest2.takeWhile (fun c => c ≠ '\t'))
  else none

/-- Match `^\+\+\+ (?:b/)?(.*?)(?:\t.*)?$` and return the captured path. -/
def matchNewFile (line : Str) : Option Str :=
  if begins ("+++ ".data) line then
    let rest := line.drop 4
    let rest2 := if begins ("b/".data) rest then rest.drop 2 else rest
    some (rest2.takeWhile (fun c => c ≠ '\t'))
  else none

/-- Match `^@@ -(\d+)(?:,(\d+))? \+(\d+)(?:,(\d+))? @@` and return
(old_start, old_count, new_start, new_count). -/
def matchHunk (line : Str) : Option (Nat × Nat × Nat × Nat) :=
  if begins ("@@ -".data) line then
    match readNat (line.drop 4) with
    | none => none
    | some (a, r1) =>
      match readCount r1 with
      | none => none
      | some (b, r2) =>
        if begins (" +".data) r2 then
          match readNat (r2.drop 2) with
          | none => none
          | some (c, r3) =>
            match readCount r3 with
            | none => none
            | some (d, r4) =>
              if begins (" @@".data) r4 then some (a, b, c, d) else none
        else none
  else none

/-- State of the in-progress hunk: none, open and owned by the current
file (`live`), or still referenced but owned by a file that was replaced
without being flushed (`dead`) — appends to a dead hunk are invisible in
the output, exactly as in the source where `current_hunk` keeps pointing
into a discarded `DiffFile`. -/
inductive HunkState where
  | hnone
  | live (h : DiffHunk)
  | dead
deriving DecidableEq

/-- Parser state: accumulated files, the pending `---`/`+++` paths, the
current file (closed hunks only), the in-progress hunk, and the running
old/new line-number cursors. -/
structure PState where
  files : List DiffFile
  oldP : Option Str
  newP : Option Str
  cur : Option DiffFile
  hs : HunkState
  oldNum : Nat
  newNum : Nat
deriving DecidableEq

def initState : PState := ⟨[], none, none, none, HunkState.hnone, 0, 0⟩

/-- The current file with its live in-progress hunk attached at the end
(the source appends the hunk object to `current_file.hunks` on creation
and then mutates it; here the attachment happens on flush). -/
def attachHunk (st : PState) : Option DiffFile :=
  match st.cur, st.hs with
  | some f, HunkState.live h => some { f with hunks := f.hunks ++ [h] }
  | c, _ => c

/-- One step of the `for line in lines` loop of `parse_unified_diff`. -/
def processLine (st : PState) (line : Str) : PState :=
  if isFileHeader line then
    { files := st.files ++ (attachHunk st).toList
      oldP := none
      newP := none
      cur := none
      hs := HunkState.hnone
      oldNum := st.oldNum
      newNum := st.newNum }
  else
    match matchOldFile line with
    | some p => { st with oldP := some p }
    | none =>
      match matchNewFile line with
      | some p =>
        match st.oldP with
        | some op =>
          { st with
            newP := some p
            cur := some ⟨op, p, []⟩
            hs := if st.hs = HunkState.hnone then HunkState.hnone else HunkState.dead }
        | none => { st with newP := some p }
      | none =>
        match matchHunk line with
        | some (a, b, c, d) =>
          if st.cur.isSome then
            { st with
              cur := attachHunk st
              hs := HunkState.live ⟨a, b, c, d, []⟩
              oldNum := a
              newNum := c }
          else st
        | none =>
          match st.hs with
          | HunkState.hnone => st
          | HunkState.live h =>
            match line with
            | '+' :: rest =>
              { st with
                hs := HunkState.live
                  { h with lines := h.lines ++ [⟨rest, LineKind.addition, none, some st.newNum⟩] }
                newNum := st.newNum + 1 }
            | '-' :: rest =>
              { st with
                hs := HunkState.live
                  { h with lines := h.lines ++ [⟨rest, LineKind.deletion, some st.oldNum, none⟩] }
                oldNum := st.oldNum + 1 }
            | ' ' :: rest =>
              { st with
                hs := HunkState.live
                  { h with lines := h.lines ++ [⟨rest, LineKind.context, some st.oldNum, some st.newNum⟩] }
                oldNum := st.oldNum + 1
                newNum := st.newNum + 1 }
            | _ => st
          | HunkState.dead =>
            match line with
            | '+' :: _ => { st with newNum := st.newNum + 1 }
            | '-' :: _ => { st with oldNum := st.oldNum + 1 }
            | ' ' :: _ => { st with oldNum := st.oldNum + 1, newNum := st.newNum + 1 }
            | _ => st

/-- `parse_unified_diff` from `diff_parser.py`. -/
def parse_unified_diff (d : Str) : List DiffFile :=
  if d = [] then []
  else
    let fin := (splitLinesC d).foldl processLine initState
    fin.files ++ (attachHunk fin).toList

/-- Decimal rendering, fuel-based so that it reduces in the kernel; the
fuel is always sufficient (`natToChars_eq` below recovers the recurrence). -/
def natToCharsAux : Nat → Nat → Str
  | 0, _ => []
  | fuel + 1, n =>
    if n < 10 then [Char.ofNat (48 + n)]
    else natToCharsAux fuel (n / 10) ++ [Char.ofNat (48 + n % 10)]

/-- Decimal rendering of a natural number, as Python string formatting does. -/
def natToChars (n : Nat) : Str := natToCharsAux (n + 1) n

/-- The `@@ -a,b +c,d @@` header emitted by `generate_file_diff`. -/
def hunkHeaderChars (h : DiffHunk) : Str :=
  "@@ -".data ++ (natToChars h.oldStart ++ (',' ::
    (natToChars h.oldCount ++ (" +".data ++ (natToChars h.newStart ++ (',' ::
      (natToChars h.newCount ++ " @@".data)))))))

/-- A content line re-prefixed with its marker character. -/
def renderLine (l : DiffLine) : Str :=
  (match l.kind with
   | LineKind.addition => '+'
   | LineKind.deletion => '-'
   | LineKind.context => ' ') :: l.content

/-- The lines of one hunk's rendering. -/
def hunkLines (h : DiffHunk) : List Str :=
  hunkHeaderChars h :: h.lines.map renderLine

/-- The lines of one file's rendering. -/
def fileLines (f : DiffFile) : List Str :=
  ("--- ".data ++ f.oldPath) :: ("+++ ".data ++ f.newPath) :: (f.hunks.map hunkLines).flatten

/-- `generate_file_diff` from `diff_parser.py`. -/
def generate_file_diff (f : DiffFile) : Str :=
  joinLines (fileLines f)

/-- Rendering of a file list, each file's diff followed by a newline,
as built by `optimize_diff_context` and `chunk_diff_by_files`. -/
def renderAll (files : List DiffFile) : Str :=
  (files.map (fun f => generate_file_diff f ++ ['\n'])).flatten

/-- The block accumulator of Strategy 1 in `optimize_diff_context`: maximal
runs of equal `line_type` are collected left to right; the current block is
`none` before the first line and is flushed when the kind changes and at
the end (empty blocks are never flushed). -/
def buildBlocks (cur : Option (LineKind × List DiffLine)) :
    List DiffLine → List (LineKind × List DiffLine)
  | [] =>
    match cur with
    | none => []
    | some b => [b]
  | l :: ls =>
    match cur with
    | none => buildBlocks (some (l.kind, [l])) ls
    | some (k, bl) =>
      if l.kind = k then buildBlocks (some (k, bl ++ [l])) ls
      else (k, bl) :: buildBlocks (some (l.kind, [l])) ls

/-- The per-block thinning of Strategy 1: change blocks are kept whole, a
context block at either edge of the block sequence keeps its first two
lines, an interior context block with more than two lines keeps its first
and last line. -/
def thinBlock (edge : Bool) (k : LineKind) (bl : List DiffLine) : List DiffLine :=
  match k with
  | LineKind.addition => bl
  | LineKind.deletion => bl
  | LineKind.context =>
    if edge then bl.take 2
    else if bl.length ≤ 2 then bl
    else bl.take 1 ++ bl.drop (bl.length - 1)

/-- The `for i, block in enumerate(context_blocks)` loop of Strategy 1. -/
def thinBlocks (bs : List (LineKind × List DiffLine)) : List DiffLine :=
  (bs.enum.map (fun p => thinBlock (p.1 == 0 || p.1 == bs.length - 1) p.2.1 p.2.2)).flatten

/-- The `essential_lines` computed for one hunk by Strategy 1. -/
def reduceLines (ls : List DiffLine) : List DiffLine :=
  thinBlocks (buildBlocks none ls)

/-- The `reduced_hunk` of Strategy 1: header fields copied, lines thinned. -/
def reduceHunk (h : DiffHunk) : DiffHunk :=
  ⟨h.oldStart, h.oldCount, h.newStart, h.newCount, reduceLines h.lines⟩

/-- The `reduced_file` of Strategy 1: paths copied, hunks thinned. -/
def reduceFile (f : DiffFile) : DiffFile :=
  ⟨f.oldPath, f.newPath, f.hunks.map reduceHunk⟩

/-- Number of addition and deletion lines of a file (`change_count`). -/
def changeCount (f : DiffFile) : Nat :=
  ((f.hunks.map (fun h =>
    (h.lines.filter (fun l =>
      l.kind == LineKind.addition || l.kind == LineKind.deletion)).length)).sum)

/-- Stable insertion into a count-descending list: an element goes before
the first strictly smaller count, so equal counts keep encounter order,
matching Python's stable `sort(key=..., reverse=True)`. -/
def insertRanked (x : DiffFile × Nat) : List (DiffFile × Nat) → List (DiffFile × Nat)
  | [] => [x]
  | y :: ys => if x.2 ≥ y.2 then x :: y :: ys else y :: insertRanked x ys

/-- The `file_relevance.sort(key=lambda x: x[1], reverse=True)` of Strategy 2. -/
def rankFiles (l : List (DiffFile × Nat)) : List (DiffFile × Nat) :=
  l.foldr insertRanked []

/-- Modelled from the spec: the walk over the ranked list in Strategy 2 of
`optimize_diff_context` — the loop body after `file_tokens` is computed is
missing from the source (the file ends at that line).  Per the spec, a file
is included only when adding its own token count to the running total does
not pass the budget; skipped files do not advance the total. -/
def selectFiles (cnt : Str → Nat) (maxTokens : Nat) : List DiffFile → Nat → List DiffFile
  | [], _ => []
  | f :: fs, cur =>
    let t := cnt (generate_file_diff f)
    if cur + t ≤ maxTokens then f :: selectFiles cnt maxTokens fs (cur + t)
    else selectFiles cnt maxTokens fs cur

/-- Modelled from the spec: the return value of Strategy 2 of
`optimize_diff_context`, missing from the truncated source.  The included
files' renders are concatenated in ranked order; when nothing fits, the
single highest-ranked file's render is returned as the documented
over-budget fallback (never an empty string when any file exists). -/
def strategy2 (reduced : List DiffFile) (maxTokens : Nat) (cnt : Str → Nat) : Str :=
  let ranked := rankFiles (reduced.map (fun f => (f, changeCount f)))
  let sel := selectFiles cnt maxTokens (ranked.map Prod.fst) 0
  match sel with
  | [] =>
    match ranked with
    | [] => []
    | best :: _ => generate_file_diff best.1
  | _ => renderAll sel

/-- `optimize_diff_context` from `token_counter.py`, with the
token-counting function injected as a parameter per the spec's contract. -/
def optimize_diff_context (d : Str) (maxTokens : Nat) (cnt : Str → Nat) : Str :=
  let files := parse_unified_diff d
  let currentTokens := cnt d
  if currentTokens ≤ maxTokens then d
  else
    let reduced := files.map reduceFile
    let reducedDiff := renderAll reduced
    if cnt reducedDiff ≤ maxTokens then reducedDiff
    else strategy2 reduced maxTokens cnt

/-- The extension table of `get_language_from_path`. -/
def extMap : List (Str × Str) :=
  [(".py".data, "python".data),
   (".js".data, "javascript".data),
   (".ts".data, "typescript".data),
   (".jsx".data, "javascript (react)".data),
   (".tsx".data, "typescript (react)".data),
   (".java".data, "java".data),
   (".c".data, "c".data),
   (".cpp".data, "c++".data),
   (".h".data, "c/c++ header".data),
   (".cs".data, "c#".data),
   (".go".data, "go".data),
   (".rb".data, "ruby".data),
   (".php".data, "php".data),
   (".swift".data, "swift".data),
   (".kt".data, "kotlin".data),
   (".rs".data, "rust".data),
   (".sh".data, "shell".data),
   (".html".data, "html".data),
   (".css".data, "css".data),
   (".scss".data, "scss".data),
   (".json".data, "json".data),
   (".md".data, "markdown".data),
   (".xml".data, "xml".data),
   (".yaml".data, "yaml".data),
   (".yml".data, "yaml".data),
   (".sql".data, "sql".data),
   (".tf".data, "terraform".data),
   (".dockerfile".data, "dockerfile".data)]

def toLowerStr (s : Str) : Str := s.map Char.toLower

/-- The text after the last dot (`rsplit('.', 1)` second component). -/
def afterLastDot (s : Str) : Str :=
  (s.reverse.takeWhile (fun c => c ≠ '.')).reverse

def lookupStr (k : Str) : List (Str × Str) → Option Str
  | [] => none
  | (k', v) :: rest => if k = k' then some v else lookupStr k rest

/-- `get_language_from_path` from `diff_parser.py`. -/
def get_language_from_path (p : Str) : Option Str :=
  let lower := toLowerStr p
  let ext := if p.contains '.' then afterLastDot lower else ([] : Str)
  let extD := '.' :: ext
  if lower = "dockerfile".data then some ("dockerfile".data)
  else lookupStr extD extMap

/-- One update of the `languages` counting dict (Python dicts preserve
insertion order, so a new language is appended at the end). -/
def bump (lang : Str) : List (Str × Nat) → List (Str × Nat)
  | [] => [(lang, 1)]
  | (l, c) :: rest => if l = lang then (l, c + 1) :: rest else (l, c) :: bump lang rest

/-- One comparison step of Python's `max(items, key=lambda x: x[1])`:
the current best is replaced only on a strictly greater key. -/
def pickMax (best y : Str × Nat) : Str × Nat :=
  if y.2 > best.2 then y else best

/-- Python's `max(items, key=lambda x: x[1])`: scans left to right and
replaces only on a strictly greater key, so the first maximum wins. -/
def maxByCount : List (Str × Nat) → Option Str
  | [] => none
  | x :: xs => some ((xs.foldl pickMax x).1)

/-- The accumulator step of `detect_common_language`: count a detected
language, skip undetected paths. -/
def langStep (acc : List (Str × Nat)) (p : Str) : List (Str × Nat) :=
  match get_language_from_path p with
  | some l => bump l acc
  | none => acc

/-- `detect_common_language` from `diff_parser.py`. -/
def detect_common_language (paths : List Str) : Option Str :=
  if paths = [] then none
  else if paths.foldl langStep [] = [] then none
  else maxByCount (paths.foldl langStep [])

/-- A chunk produced by `chunk_diff_by_files`. -/
structure Chunk where
  diff : Str
  files : List Str
  language : Option Str
deriving DecidableEq

def mkChunk (diff : Str) (fps : List Str) : Chunk :=
  ⟨diff, fps, detect_common_language fps⟩

/-- The `for file in files` loop of `chunk_diff_by_files`, carrying the
running buffer and its file paths. -/
def chunkGo (maxSize : Nat) : List DiffFile → Str → List Str → List Chunk
  | [], buf, bufFiles => if buf = [] then [] else [mkChunk buf bufFiles]
  | f :: fs, buf, bufFiles =>
    let fd := generate_file_diff f
    if maxSize < buf.length + fd.length ∧ buf ≠ [] then
      mkChunk buf bufFiles :: chunkGo maxSize fs (fd ++ ['\n']) [f.get_path]
    else chunkGo maxSize fs (buf ++ fd ++ ['\n']) (bufFiles ++ [f.get_path])

/-- `chunk_diff_by_files` from `diff_parser.py`. -/
def chunk_diff_by_files (d : Str) (maxSize : Nat) : List Chunk :=
  chunkGo maxSize (parse_unified_diff d) [] []

/-- Is the line an addition or deletion line? -/
def isChangeLine (l : DiffLine) : Bool :=
  l.kind == LineKind.addition || l.kind == LineKind.deletion

theorem dropWhile_len_le {α : Type} (p : α → Bool) (l : List α) :
    (l.dropWhile p).length ≤ l.length := by
  induction l with
  | nil => simp
  | cons x xs ih =>
    by_cases h : p x
    · simp only [List.dropWhile_cons, if_pos h, List.length_cons]
      omega
    · simp [List.dropWhile_cons, h]

/-- The maximal-run partition of a hunk's lines: each run is a maximal
contiguous block of lines of a single kind, in order. -/
def runs : List DiffLine → List (LineKind × List DiffLine)
  | [] => []
  | l :: ls =>
    (l.kind, l :: ls.takeWhile (fun x => x.kind == l.kind)) ::
      runs (ls.dropWhile (fun x => x.kind == l.kind))
termination_by ls => ls.length
decreasing_by
  simp only [List.length_cons]
  have := dropWhile_len_le (fun x => x.kind == l.kind) ls
  omega

theorem runs_nil : runs [] = [] := by
  rw [runs.eq_def]

theorem runs_cons (l : DiffLine) (ls : List DiffLine) :
    runs (l :: ls) =
      (l.kind, l :: ls.takeWhile (fun x => x.kind == l.kind)) ::
        runs (ls.dropWhile (fun x => x.kind == l.kind)) := by
  rw [runs.eq_def]

theorem buildBlocks_some (ls : List DiffLine) : ∀ (k : LineKind) (bl : List DiffLine),
    buildBlocks (some (k, bl)) ls =
      (k, bl ++ ls.takeWhile (fun x => x.kind == k)) ::
        runs (ls.dropWhile (fun x => x.kind == k)) := by
  induction ls with
  | nil => intro k bl; simp [buildBlocks, runs_nil]
  | cons l ls ih =>
    intro k bl
    have hstep : buildBlocks (some (k, bl)) (l :: ls)
        = if l.kind = k then buildBlocks (some (k, bl ++ [l])) ls
          else (k, bl) :: buildBlocks (some (l.kind, [l])) ls := rfl
    by_cases h : l.kind = k
    · subst h
      rw [hstep, if_pos rfl, ih l.kind (bl ++ [l])]
      simp [List.takeWhile_cons, List.dropWhile_cons]
    · rw [hstep, if_neg h, ih l.kind [l]]
      have ht : List.takeWhile (fun x => x.kind == k) (l :: ls) = [] := by
        simp [List.takeWhile_cons, h]
      have hd : List.dropWhile (fun x => x.kind == k) (l :: ls) = l :: ls := by
        simp [List.dropWhile_cons, h]
      rw [ht, hd, runs_cons]
      simp

theorem buildBlocks_eq_runs (ls : List DiffLine) : buildBlocks none ls = runs ls := by
  cases ls with
  | nil => rw [runs_nil]; rfl
  | cons l ls =>
    have h1 : buildBlocks none (l :: ls) = buildBlocks (some (l.kind, [l])) ls := rfl
    rw [h1, buildBlocks_some, runs_cons]
    simp

theorem buildBlocks_some_flatten (ls : List DiffLine) : ∀ (k : LineKind) (bl : List DiffLine),
    ((buildBlocks (some (k, bl)) ls).map Prod.snd).flatten = bl ++ ls := by
  induction ls with
  | nil => intro k bl; simp [buildBlocks]
  | cons l ls ih =>
    intro k bl
    have hstep : buildBlocks (some (k, bl)) (l :: ls)
        = if l.kind = k then buildBlocks (some (k, bl ++ [l])) ls
          else (k, bl) :: buildBlocks (some (l.kind, [l])) ls := rfl
    by_cases h : l.kind = k
    · rw [hstep, if_pos h, ih k (bl ++ [l])]
      simp
    · rw [hstep, if_neg h]
      simp only [List.map_cons, List.flatten_cons, ih l.kind [l]]
      simp

theorem buildBlocks_flatten (ls : List DiffLine) :
    ((buildBlocks none ls).map Prod.snd).flatten = ls := by
  cases ls with
  | nil => rfl
  | cons l ls =>
    have h1 : buildBlocks none (l :: ls) = buildBlocks (some (l.kind, [l])) ls := rfl
    rw [h1, buildBlocks_some_flatten]
    rfl

theorem buildBlocks_homog (ls : List DiffLine) : ∀ (k : LineKind) (bl : List DiffLine),
    bl ≠ [] → (∀ x ∈ bl, x.kind = k) →
    ∀ b ∈ buildBlocks (some (k, bl)) ls, b.2 ≠ [] ∧ ∀ x ∈ b.2, x.kind = b.1 := by
  induction ls with
  | nil =>
    intro k bl hne hk b hb
    simp [buildBlocks] at hb
    subst hb
    exact ⟨hne, hk⟩
  | cons l ls ih =>
    intro k bl hne hk b hb
    have hstep : buildBlocks (some (k, bl)) (l :: ls)
        = if l.kind = k then buildBlocks (some (k, bl ++ [l])) ls
          else (k, bl) :: buildBlocks (some (l.kind, [l])) ls := rfl
    by_cases h : l.kind = k
    · rw [hstep, if_pos h] at hb
      refine ih k (bl ++ [l]) (by simp) ?_ b hb
      intro x hx
      rcases List.mem_append.mp hx with hx | hx
      · exact hk x hx
      · simp at hx; subst hx; exact h
    · rw [hstep, if_neg h] at hb
      rcases List.mem_cons.mp hb with hb | hb
      · subst hb; exact ⟨hne, hk⟩
      · exact ih l.kind [l] (by simp) (by simp) b hb

theorem buildBlocks_chain (ls : List DiffLine) : ∀ (k : LineKind) (bl : List DiffLine),
    List.Chain' (fun a b => a.1 ≠ b.1) (buildBlocks (some (k, bl)) ls) := by
  induction ls with
  | nil => intro k bl; simp [buildBlocks]
  | cons l ls ih =>
    intro k bl
    have hstep : buildBlocks (some (k, bl)) (l :: ls)
        = if l.kind = k then buildBlocks (some (k, bl ++ [l])) ls
          else (k, bl) :: buildBlocks (some (l.kind, [l])) ls := rfl
    by_cases h : l.kind = k
    · rw [hstep, if_pos h]; exact ih k (bl ++ [l])
    · rw [hstep, if_neg h]
      rw [List.chain'_cons']
      refine ⟨?_, ih l.kind [l]⟩
      intro y hy
      rw [buildBlocks_some] at hy
      simp at hy
      subst hy
      simp only [ne_eq]
      intro hkk
      exact h hkk.symm

theorem runs_flatten (ls : List DiffLine) : ((runs ls).map Prod.snd).flatten = ls := by
  rw [← buildBlocks_eq_runs]; exact buildBlocks_flatten ls

theorem runs_homog (ls : List DiffLine) :
    ∀ b ∈ runs ls, b.2 ≠ [] ∧ ∀ x ∈ b.2, x.kind = b.1 := by
  rw [← buildBlocks_eq_runs]
  cases ls with
  | nil => simp [buildBlocks]
  | cons l ls =>
    have h1 : buildBlocks none (l :: ls) = buildBlocks (some (l.kind, [l])) ls := rfl
    rw [h1]
    exact buildBlocks_homog ls l.kind [l] (by simp) (by simp)

theorem runs_chain (ls : List DiffLine) :
    List.Chain' (fun a b => a.1 ≠ b.1) (runs ls) := by
  rw [← buildBlocks_eq_runs]
  cases ls with
  | nil => simp [buildBlocks]
  | cons l ls =>
    have h1 : buildBlocks none (l :: ls) = buildBlocks (some (l.kind, [l])) ls := rfl
    rw [h1]
    exact buildBlocks_chain ls l.kind [l]

theorem filter_thinBlock (e : Bool) (k : LineKind) (bl : List DiffLine)
    (hk : ∀ x ∈ bl, x.kind = k) :
    (thinBlock e k bl).filter isChangeLine = bl.filter isChangeLine := by
  cases k with
  | addition => rfl
  | deletion => rfl
  | context =>
    have hnil : ∀ (l' : List DiffLine), l' ⊆ bl → l'.filter isChangeLine = [] := by
      intro l' hsub
      rw [List.filter_eq_nil_iff]
      intro a ha
      have := hk a (hsub ha)
      simp [isChangeLine, this]
    rw [hnil bl (fun _ h => h)]
    simp only [thinBlock]
    by_cases he : e = true
    · rw [if_pos he]; exact hnil _ (List.take_subset 2 bl)
    · rw [if_neg he]
      by_cases hl : bl.length ≤ 2
      · rw [if_pos hl]; exact hnil bl (fun _ h => h)
      · rw [if_neg hl]
        refine hnil _ ?_
        intro a ha
        rcases List.mem_append.mp ha with ha | ha
        · exact List.take_subset 1 bl ha
        · exact List.drop_subset _ bl ha

theorem filter_thinAux (len : Nat) (bs : List (LineKind × List DiffLine)) :
    ∀ (n : Nat), (∀ b ∈ bs, ∀ x ∈ b.2, x.kind = b.1) →
    (((bs.enumFrom n).map
        (fun p => thinBlock (p.1 == 0 || p.1 == len) p.2.1 p.2.2)).flatten).filter isChangeLine
      = ((bs.map Prod.snd).flatten).filter isChangeLine := by
  induction bs with
  | nil => intro n _; rfl
  | cons b bs ih =>
    intro n hb
    rw [List.enumFrom_cons]
    simp only [List.map_cons, List.flatten_cons, List.filter_append]
    rw [filter_thinBlock _ _ _ (hb b (List.mem_cons_self b bs)),
      ih (n + 1) (fun b' hb' => hb b' (List.mem_cons_of_mem b hb'))]

theorem filter_thinBlocks (bs : List (LineKind × List DiffLine))
    (hb : ∀ b ∈ bs, ∀ x ∈ b.2, x.kind = b.1) :
    (thinBlocks bs).filter isChangeLine = ((bs.map Prod.snd).flatten).filter isChangeLine := by
  rw [thinBlocks]
  exact filter_thinAux (bs.length - 1) bs 0 hb

/-- C5: Strategy-1 context thinning preserves every addition and deletion
line of each hunk, in order and with all fields intact — the filtered
change-line sequence of the thinned hunk equals that of the original. -/
theorem thinning_preserves_changes (h : DiffHunk) :
    ((reduceHunk h).lines.filter isChangeLine) = h.lines.filter isChangeLine := by
  have h1 : (reduceHunk h).lines = thinBlocks (buildBlocks none h.lines) := rfl
  rw [h1]
  have hhom : ∀ b ∈ buildBlocks none h.lines, ∀ x ∈ b.2, x.kind = b.1 := by
    cases hl : h.lines with
    | nil => simp [buildBlocks]
    | cons l ls =>
      have h2 : buildBlocks none (l :: ls) = buildBlocks (some (l.kind, [l])) ls := rfl
      rw [h2]
      intro b hb
      exact (buildBlocks_homog ls l.kind [l] (by simp) (by simp) b hb).2
  rw [filter_thinBlocks _ hhom, buildBlocks_flatten]

/-- C6: Strategy-1 thinning acts blockwise — the thinned lines are exactly
`thinBlocks` applied to the maximal-run partition of the hunk's lines (a
first-or-last context run keeps its first two lines, an interior context
run longer than two lines keeps its first and last line, shorter interior
context runs and all change runs are kept whole), and `runs` really is the
maximal-run partition: it concatenates back to the original lines, every
run is nonempty and homogeneous in kind, and adjacent runs differ in kind. -/
theorem strategy1_block_structure (h : DiffHunk) :
    (reduceHunk h).lines = thinBlocks (runs h.lines) ∧
    ((runs h.lines).map Prod.snd).flatten = h.lines ∧
    (∀ b ∈ runs h.lines, b.2 ≠ [] ∧ ∀ x ∈ b.2, x.kind = b.1) ∧
    List.Chain' (fun a b => a.1 ≠ b.1) (runs h.lines) := by
  refine ⟨?_, runs_flatten h.lines, runs_homog h.lines, runs_chain h.lines⟩
  have h1 : (reduceHunk h).lines = thinBlocks (buildBlocks none h.lines) := rfl
  rw [h1, buildBlocks_eq_runs]

/-- C7: Strategy-1 thinning is a frame transformation — it keeps both file
paths and every hunk-header field (`old_start`, `old_count`, `new_start`,
`new_count`) unchanged, modifying only the line sequence of each hunk. -/
theorem strategy1_preserves_headers (f : DiffFile) (h : DiffHunk) :
    (reduceFile f).oldPath = f.oldPath ∧ (reduceFile f).newPath = f.newPath ∧
    (reduceFile f).hunks = f.hunks.map reduceHunk ∧
    (reduceHunk h).oldStart = h.oldStart ∧ (reduceHunk h).oldCount = h.oldCount ∧
    (reduceHunk h).newStart = h.newStart ∧ (reduceHunk h).newCount = h.newCount ∧
    (reduceHunk h).lines = reduceLines h.lines :=
  ⟨rfl, rfl, rfl, rfl, rfl, rfl, rfl, rfl⟩

/-- C3: when the injected token count of the input is already within the
budget, `optimize_diff_context` returns the input unchanged; the witness
instantiates this at the empty string under a positive budget. -/
theorem optimize_within_budget_id (cnt : Str → Nat) (maxTokens : Nat) (d : Str)
    (h : cnt d ≤ maxTokens) : optimize_diff_context d maxTokens cnt = d := by
  simp only [optimize_diff_context, if_pos h]

/-- Witness for C3 at the empty diff: the counter gives 0 for the empty
string, so optimization returns the empty string. -/
theorem optimize_within_budget_id_witness :
    (fun s : Str => s.length) [] ≤ 10 ∧
      optimize_diff_context [] 10 (fun s : Str => s.length) = [] :=
  ⟨by decide, optimize_within_budget_id (fun s : Str => s.length) 10 [] (by decide)⟩

theorem isFileHeader_plus (cs : Str) : isFileHeader ('+' :: cs) = false := rfl

theorem isFileHeader_dash (cs : Str) : isFileHeader ('-' :: cs) = false := rfl

theorem isFileHeader_space (cs : Str) : isFileHeader (' ' :: cs) = false := rfl

theorem isFileHeader_at (cs : Str) : isFileHeader ('@' :: cs) = false := rfl

theorem matchOldFile_plus (cs : Str) : matchOldFile ('+' :: cs) = none := rfl

theorem matchOldFile_space (cs : Str) : matchOldFile (' ' :: cs) = none := rfl

theorem matchOldFile_at (cs : Str) : matchOldFile ('@' :: cs) = none := rfl

theorem matchNewFile_dash (cs : Str) : matchNewFile ('-' :: cs) = none := rfl

theorem matchNewFile_space (cs : Str) : matchNewFile (' ' :: cs) = none := rfl

theorem matchNewFile_at (cs : Str) : matchNewFile ('@' :: cs) = none := rfl

theorem matchHunk_plus (cs : Str) : matchHunk ('+' :: cs) = none := rfl

theorem matchHunk_dash (cs : Str) : matchHunk ('-' :: cs) = none := rfl

theorem matchHunk_space (cs : Str) : matchHunk (' ' :: cs) = none := rfl

theorem begins_cons {c : Char} {ps s : Str} (h : begins (c :: ps) s = true) :
    ∃ cs, s = c :: cs ∧ begins ps cs = true := by
  cases s with
  | nil => simp [begins] at h
  | cons x xs =>
    rw [begins, Bool.and_eq_true] at h
    exact ⟨xs, by rw [← beq_iff_eq.mp h.1], h.2⟩

theorem matchNewFile_head {line p : Str} (h : matchNewFile line = some p) :
    ∃ cs, line = '+' :: cs := by
  rw [matchNewFile] at h
  by_cases hb : begins ("+++ ".data) line = true
  · have he : ("+++ ".data) = '+' :: "++ ".data := rfl
    rw [he] at hb
    obtain ⟨cs, hcs, _⟩ := begins_cons hb
    exact ⟨cs, hcs⟩
  · rw [if_neg hb] at h
    exact absurd h (by simp)

theorem processLine_nonheader_files (st : PState) (line : Str)
    (h : ¬ isFileHeader line = true) : (processLine st line).files = st.files := by
  unfold processLine
  rw [if_neg h]
  repeat' split
  all_goals rfl

/-- C10: files are flushed into the parser's result only on a `diff --git`
header line (or at end of input), so the result holds at most one more file
than there are such header lines; and a `+++` line arriving while an old
path is pending makes a fresh file current without flushing the previous
current file, which is thereby replaced — the concrete input shows the
file begun by the earlier `---`/`+++` pair absent from the output. -/
theorem parse_flush_behavior (d : Str) (st : PState) (line p op : Str)
    (h1 : matchNewFile line = some p) (h2 : st.oldP = some op) :
    (parse_unified_diff d).length ≤ ((splitLinesC d).filter isFileHeader).length + 1 ∧
    (processLine st line).files = st.files ∧
    (processLine st line).cur = some ⟨op, p, []⟩ ∧
    parse_unified_diff ("--- x\n+++ x\n@@ -1,1 +1,1 @@\n c\n--- y\n+++ y\n".data)
      = [⟨"y".data, "y".data, []⟩] := by
  have hstep : ∀ st' : PState, st'.oldP = some op →
      processLine st' line = { st' with
        newP := some p
        cur := some ⟨op, p, []⟩
        hs := if st'.hs = HunkState.hnone then HunkState.hnone else HunkState.dead } := by
    intro st' ho
    obtain ⟨cs, hcs⟩ := matchNewFile_head h1
    subst hcs
    unfold processLine
    rw [if_neg (by rw [isFileHeader_plus]; exact Bool.false_ne_true), matchOldFile_plus, h1, ho]
  have hbound : ∀ (lines : List Str) (st0 : PState),
      ((lines.foldl processLine st0).files).length
        ≤ st0.files.length + (lines.filter isFileHeader).length := by
    intro lines
    induction lines with
    | nil => intro st0; simp
    | cons l ls ih =>
      intro st0
      rw [List.foldl_cons]
      by_cases h : isFileHeader l = true
      · have hfl : (processLine st0 l).files = st0.files ++ (attachHunk st0).toList := by
          unfold processLine
          rw [if_pos h]
        have htl : (attachHunk st0).toList.length ≤ 1 := by
          cases attachHunk st0 <;> simp
        have := ih (processLine st0 l)
        rw [hfl] at this
        rw [List.filter_cons_of_pos h]
        simp only [List.length_append, List.length_cons] at this ⊢
        omega
      · have := ih (processLine st0 l)
        rw [processLine_nonheader_files st0 l h] at this
        rw [List.filter_cons_of_neg h]
        exact this
  refine ⟨?_, ?_, ?_, by decide⟩
  · rw [parse_unified_diff]
    by_cases hd : d = []
    · simp [hd]
    · rw [if_neg hd]
      have h1 := hbound (splitLinesC d) initState
      have h2 : (attachHunk ((splitLinesC d).foldl processLine initState)).toList.length ≤ 1 := by
        cases attachHunk ((splitLinesC d).foldl processLine initState) <;> simp
      have h3 : initState.files.length = 0 := rfl
      simp only [List.length_append]
      omega
  · rw [hstep st h2]
  · rw [hstep st h2]

/-- Witness for C10 at a concrete parser state and `+++` line. -/
theorem parse_flush_behavior_witness :
    (parse_unified_diff []).length ≤ ((splitLinesC []).filter isFileHeader).length + 1 ∧
    (processLine { initState with oldP := some ("x".data) } ("+++ y".data)).files
      = ({ initState with oldP := some ("x".data) } : PState).files ∧
    (processLine { initState with oldP := some ("x".data) } ("+++ y".data)).cur
      = some ⟨"x".data, "y".data, []⟩ ∧
    parse_unified_diff ("--- x\n+++ x\n@@ -1,1 +1,1 @@\n c\n--- y\n+++ y\n".data)
      = [⟨"y".data, "y".data, []⟩] :=
  parse_flush_behavior [] { initState with oldP := some ("x".data) }
    ("+++ y".data) ("y".data) ("x".data) (by decide) rfl

theorem renderAll_append (a b : List DiffFile) :
    renderAll (a ++ b) = renderAll a ++ renderAll b := by
  simp [renderAll]

theorem renderAll_singleton (f : DiffFile) :
    renderAll [f] = generate_file_diff f ++ ['\n'] := by
  simp [renderAll]

theorem generate_file_diff_ne_nil (f : DiffFile) : generate_file_diff f ≠ [] := by
  rw [generate_file_diff, fileLines]
  cases hl : ("+++ ".data ++ f.newPath) :: (f.hunks.map hunkLines).flatten with
  | nil => exact absurd hl (by simp)
  | cons x xs => simp [joinLines]

theorem renderAll_eq_nil_iff (fs : List DiffFile) : renderAll fs = [] ↔ fs = [] := by
  cases fs with
  | nil => simp [renderAll]
  | cons f fs =>
    simp only [renderAll, List.map_cons, List.flatten_cons]
    constructor
    · intro h
      rcases List.append_eq_nil.mp h with ⟨h1, _⟩
      rcases List.append_eq_nil.mp h1 with ⟨h2, _⟩
      exact absurd h2 (generate_file_diff_ne_nil f)
    · intro h
      exact absurd h (by simp)

/-- The greedy grouping of whole files described by the spec for the
chunker: a group is closed out when the next file's render would push the
buffer past the limit and the buffer is nonempty. -/
def groupGo (maxSize : Nat) : List DiffFile → List DiffFile → List (List DiffFile)
  | [], cur => if cur = [] then [] else [cur]
  | f :: fs, cur =>
    if maxSize < (renderAll cur).length + (generate_file_diff f).length ∧ cur ≠ [] then
      cur :: groupGo maxSize fs [f]
    else groupGo maxSize fs (cur ++ [f])

def greedyGroups (maxSize : Nat) (fs : List DiffFile) : List (List DiffFile) :=
  groupGo maxSize fs []

/-- The chunk a group of files denotes: its rendered text, its effective
paths, and the common language over those paths. -/
def groupChunk (g : List DiffFile) : Chunk :=
  mkChunk (renderAll g) (g.map DiffFile.get_path)

theorem chunkGo_eq_groupGo (maxSize : Nat) : ∀ (fs cur : List DiffFile),
    chunkGo maxSize fs (renderAll cur) (cur.map DiffFile.get_path)
      = (groupGo maxSize fs cur).map groupChunk := by
  intro fs
  induction fs with
  | nil =>
    intro cur
    by_cases h : cur = []
    · subst h; simp [chunkGo, groupGo, renderAll]
    · have hr : renderAll cur ≠ [] := fun hc => h ((renderAll_eq_nil_iff cur).mp hc)
      simp [chunkGo, groupGo, h, hr, groupChunk]
  | cons f fs ih =>
    intro cur
    rw [chunkGo, groupGo]
    by_cases h : maxSize < (renderAll cur).length + (generate_file_diff f).length ∧ cur ≠ []
    · have h' : maxSize < (renderAll cur).length + (generate_file_diff f).length ∧
          renderAll cur ≠ [] :=
        ⟨h.1, fun hc => h.2 ((renderAll_eq_nil_iff cur).mp hc)⟩
      rw [if_pos h', if_pos h, List.map_cons]
      have hone : generate_file_diff f ++ ['\n'] = renderAll [f] := (renderAll_singleton f).symm
      have hpath : [f.get_path] = ([f] : List DiffFile).map DiffFile.get_path := rfl
      rw [hone, hpath, ih [f]]
      rfl
    · have h' : ¬ (maxSize < (renderAll cur).length + (generate_file_diff f).length ∧
          renderAll cur ≠ []) := by
        intro hc
        exact h ⟨hc.1, fun hc2 => hc.2 (by rw [hc2]; rfl)⟩
      rw [if_neg h', if_neg h]
      have hbuf : renderAll cur ++ generate_file_diff f ++ ['\n'] = renderAll (cur ++ [f]) := by
        rw [renderAll_append, renderAll_singleton, List.append_assoc]
      have hpath : cur.map DiffFile.get_path ++ [f.get_path]
          = (cur ++ [f]).map DiffFile.get_path := by simp
      rw [hbuf, hpath, ih (cur ++ [f])]

theorem groupGo_flatten (maxSize : Nat) : ∀ (fs cur : List DiffFile),
    (groupGo maxSize fs cur).flatten = cur ++ fs := by
  intro fs
  induction fs with
  | nil =>
    intro cur
    by_cases h : cur = []
    · subst h; simp [groupGo]
    · simp [groupGo, h]
  | cons f fs ih =>
    intro cur
    rw [groupGo]
    by_cases h : maxSize < (renderAll cur).length + (generate_file_diff f).length ∧ cur ≠ []
    · rw [if_pos h, List.flatten_cons, ih [f]]
      simp
    · rw [if_neg h, ih (cur ++ [f])]
      simp

theorem groupGo_nonempty (maxSize : Nat) : ∀ (fs cur : List DiffFile),
    ∀ g ∈ groupGo maxSize fs cur, g ≠ [] := by
  intro fs
  induction fs with
  | nil =>
    intro cur g hg
    by_cases h : cur = []
    · rw [groupGo, if_pos h] at hg; simp at hg
    · rw [groupGo, if_neg h] at hg
      simp at hg
      subst hg
      exact h
  | cons f fs ih =>
    intro cur g hg
    rw [groupGo] at hg
    by_cases h : maxSize < (renderAll cur).length + (generate_file_diff f).length ∧ cur ≠ []
    · rw [if_pos h] at hg
      rcases List.mem_cons.mp hg with hg | hg
      · subst hg; exact h.2
      · exact ih [f] g hg
    · rw [if_neg h] at hg
      exact ih (cur ++ [f]) g hg

theorem member_render_lt (f : DiffFile) : ∀ (g : List DiffFile), f ∈ g →
    (generate_file_diff f).length < (renderAll g).length := by
  intro g
  induction g with
  | nil => intro h; simp at h
  | cons x xs ih =>
    intro h
    have hx : renderAll (x :: xs) = (generate_file_diff x ++ ['\n']) ++ renderAll xs := by
      simp [renderAll]
    rcases List.mem_cons.mp h with h | h
    · subst h
      rw [hx]
      simp only [List.length_append, List.length_cons, List.length_nil]
      omega
    · have := ih h
      rw [hx]
      simp only [List.length_append]
      omega

theorem groupGo_oversize (maxSize : Nat) : ∀ (fs cur : List DiffFile),
    (∀ f ∈ cur, maxSize < (generate_file_diff f).length → cur = [f]) →
    ∀ g ∈ groupGo maxSize fs cur, ∀ f ∈ g,
      maxSize < (generate_file_diff f).length → g = [f] := by
  intro fs
  induction fs with
  | nil =>
    intro cur hinv g hg
    by_cases h : cur = []
    · rw [groupGo, if_pos h] at hg; simp at hg
    · rw [groupGo, if_neg h] at hg
      simp at hg
      subst hg
      exact hinv
  | cons f0 fs ih =>
    intro cur hinv g hg
    rw [groupGo] at hg
    by_cases h : maxSize < (renderAll cur).length + (generate_file_diff f0).length ∧ cur ≠ []
    · rw [if_pos h] at hg
      rcases List.mem_cons.mp hg with hg | hg
      · subst hg; exact hinv
      · refine ih [f0] ?_ g hg
        intro f hf _
        simp at hf
        subst hf
        rfl
    · rw [if_neg h] at hg
      refine ih (cur ++ [f0]) ?_ g hg
      by_cases hc : cur = []
      · subst hc
        intro f hf _
        simp at hf
        subst hf
        rfl
      · have hle : (renderAll cur).length + (generate_file_diff f0).length ≤ maxSize := by
          rcases not_and_or.mp h with h | h
          · omega
          · exact absurd hc (by simpa using h)
        intro f hf hbig
        exfalso
        rcases List.mem_append.mp hf with hf | hf
        · have := member_render_lt f cur hf
          omega
        · simp at hf
          subst hf
          omega

/-- C8: the chunker equals the greedy whole-file grouping — the chunk list
is the image of the group partition, the groups concatenate back to the
parsed file list (so the chunk `files` lists concatenate, in order and
without duplication or omission, to the effective paths of all parsed
files), every group is nonempty with each file's render contained whole in
exactly its own chunk, a file whose render alone exceeds the limit sits in
a singleton group, and an empty input yields no chunks. -/
theorem chunk_coverage (d : Str) (maxSize : Nat) :
    chunk_diff_by_files d maxSize
      = (greedyGroups maxSize (parse_unified_diff d)).map groupChunk ∧
    (greedyGroups maxSize (parse_unified_diff d)).flatten = parse_unified_diff d ∧
    ((chunk_diff_by_files d maxSize).map Chunk.files).flatten
      = (parse_unified_diff d).map DiffFile.get_path ∧
    (∀ g ∈ greedyGroups maxSize (parse_unified_diff d), g ≠ [] ∧
      ∀ f ∈ g, maxSize < (generate_file_diff f).length → g = [f]) ∧
    chunk_diff_by_files [] maxSize = [] := by
  have heq : chunk_diff_by_files d maxSize
      = (greedyGroups maxSize (parse_unified_diff d)).map groupChunk := by
    rw [chunk_diff_by_files, greedyGroups]
    have h0 : (renderAll []) = ([] : Str) := rfl
    have h1 : (([] : List DiffFile).map DiffFile.get_path) = ([] : List Str) := rfl
    rw [← h0, ← h1, chunkGo_eq_groupGo]
  have hflat : (greedyGroups maxSize (parse_unified_diff d)).flatten
      = parse_unified_diff d := by
    rw [greedyGroups, groupGo_flatten]
    rfl
  refine ⟨heq, hflat, ?_, ?_, rfl⟩
  · rw [heq]
    have : ((greedyGroups maxSize (parse_unified_diff d)).map groupChunk).map Chunk.files
        = (greedyGroups maxSize (parse_unified_diff d)).map
            (fun g => g.map DiffFile.get_path) := by
      rw [List.map_map]
      rfl
    rw [this, ← List.map_flatten, hflat]
  · intro g hg
    exact ⟨groupGo_nonempty maxSize _ [] g hg,
      groupGo_oversize maxSize _ [] (by intro f hf; simp at hf) g hg⟩

/-- The languages detected across the paths, in scan order with repeats. -/
def detectedLangs (paths : List Str) : List Str :=
  paths.filterMap get_language_from_path

/-- First-occurrence deduplication, keeping encounter order. -/
def dedupFirst : List Str → List Str
  | [] => []
  | x :: xs => x :: dedupFirst (xs.filter (fun y => y != x))
termination_by l => l.length
decreasing_by
  exact Nat.lt_succ_of_le (List.length_filter_le _ _)

theorem dedupFirst_nil : dedupFirst [] = [] := by
  rw [dedupFirst.eq_def]

theorem dedupFirst_cons (x : Str) (xs : List Str) :
    dedupFirst (x :: xs) = x :: dedupFirst (xs.filter (fun y => y != x)) := by
  rw [dedupFirst.eq_def]

theorem mem_dedupFirst : ∀ (n : Nat) (ds : List Str), ds.length ≤ n →
    ∀ a, (a ∈ dedupFirst ds ↔ a ∈ ds) := by
  intro n
  induction n with
  | zero =>
    intro ds h a
    have hds : ds = [] := List.eq_nil_of_length_eq_zero (by omega)
    subst hds
    simp [dedupFirst_nil]
  | succ n ih =>
    intro ds h a
    cases ds with
    | nil => simp [dedupFirst_nil]
    | cons x xs =>
      have hlen : (xs.filter (fun y => y != x)).length ≤ n :=
        le_trans (List.length_filter_le _ _) (by simpa using h)
      rw [dedupFirst_cons]
      simp only [List.mem_cons]
      constructor
      · rintro (rfl | hm)
        · exact Or.inl rfl
        · exact Or.inr (List.mem_of_mem_filter ((ih _ hlen a).mp hm))
      · rintro (rfl | hm)
        · exact Or.inl rfl
        · by_cases hax : a = x
          · exact Or.inl hax
          · exact Or.inr ((ih _ hlen a).mpr
              (List.mem_filter.mpr ⟨hm, by simp [bne_iff_ne, hax]⟩))

theorem dedupFirst_eq_nil_iff (ds : List Str) : dedupFirst ds = [] ↔ ds = [] := by
  cases ds with
  | nil => simp [dedupFirst_nil]
  | cons x xs =>
    rw [dedupFirst_cons]
    simp

theorem dedupFirst_nodup : ∀ (n : Nat) (ds : List Str), ds.length ≤ n →
    (dedupFirst ds).Nodup := by
  intro n
  induction n with
  | zero =>
    intro ds h
    have hds : ds = [] := List.eq_nil_of_length_eq_zero (by omega)
    subst hds
    simp [dedupFirst_nil]
  | succ n ih =>
    intro ds h
    cases ds with
    | nil => simp [dedupFirst_nil]
    | cons x xs =>
      have hlen : (xs.filter (fun y => y != x)).length ≤ n :=
        le_trans (List.length_filter_le _ _) (by simpa using h)
      rw [dedupFirst_cons, List.nodup_cons]
      refine ⟨?_, ih _ hlen⟩
      intro hx
      have hmem := (mem_dedupFirst n _ hlen x).mp hx
      have := (List.mem_filter.mp hmem).2
      simp [bne_iff_ne] at this

theorem dedupFirst_append_singleton : ∀ (n : Nat) (ds : List Str), ds.length ≤ n →
    ∀ l, dedupFirst (ds ++ [l]) = dedupFirst ds ++ (if l ∈ ds then [] else [l]) := by
  intro n
  induction n with
  | zero =>
    intro ds h l
    have hds : ds = [] := List.eq_nil_of_length_eq_zero (by omega)
    subst hds
    simp [dedupFirst_nil, dedupFirst_cons]
  | succ n ih =>
    intro ds h l
    cases ds with
    | nil => simp [dedupFirst_nil, dedupFirst_cons]
    | cons x xs =>
      have hlen : (xs.filter (fun y => y != x)).length ≤ n :=
        le_trans (List.length_filter_le _ _) (by simpa using h)
      rw [List.cons_append, dedupFirst_cons, dedupFirst_cons, List.filter_append]
      by_cases hlx : l = x
      · subst hlx
        have hfl : ([l] : List Str).filter (fun y => y != l) = [] := by
          simp [List.filter_cons]
        rw [hfl, List.append_nil, if_pos (List.mem_cons_self l xs)]
        simp
      · have hfl : ([l] : List Str).filter (fun y => y != x) = [l] := by
          simp [List.filter_cons, bne_iff_ne, hlx]
        rw [hfl, ih _ hlen l]
        have hmem : (l ∈ xs.filter (fun y => y != x)) ↔ l ∈ xs := by
          simp [List.mem_filter, bne_iff_ne, hlx]
        by_cases hm : l ∈ xs
        · rw [if_pos (hmem.mpr hm), if_pos (by simp [hm])]
          simp
        · rw [if_neg (fun hc => hm (hmem.mp hc)),
            if_neg (by simp [hm, hlx])]
          simp

/-- The counting dict of `detect_common_language` is faithful: its keys are
the detected languages in first-encounter order and each value is the
occurrence count of its key. -/
def GoodLangs (ds : List Str) (L : List (Str × Nat)) : Prop :=
  L.map Prod.fst = dedupFirst ds ∧ ∀ p ∈ L, p.2 = ds.count p.1

theorem bump_keys (l : Str) : ∀ L : List (Str × Nat),
    (bump l L).map Prod.fst =
      if l ∈ L.map Prod.fst then L.map Prod.fst else L.map Prod.fst ++ [l] := by
  intro L
  induction L with
  | nil => simp [bump]
  | cons p L ih =>
    obtain ⟨k, c⟩ := p
    rw [bump]
    by_cases hk : k = l
    · subst hk
      rw [if_pos rfl]
      simp
    · rw [if_neg hk, List.map_cons, ih]
      have hmem : (l ∈ (k, c).1 :: L.map Prod.fst) ↔ l ∈ L.map Prod.fst := by
        simp only [List.mem_cons]
        constructor
        · rintro (h | h)
          · exact absurd h.symm hk
          · exact h
        · exact Or.inr
      by_cases hm : l ∈ L.map Prod.fst
      · rw [if_pos hm]
        simp only [List.map_cons]
        rw [if_pos (hmem.mpr hm)]
      · rw [if_neg hm]
        simp only [List.map_cons]
        rw [if_neg (fun hc => hm (hmem.mp hc))]
        simp

theorem bump_vals (l : Str) (v : Str → Nat) : ∀ L : List (Str × Nat),
    (L.map Prod.fst).Nodup →
    (∀ p ∈ L, p.2 = v p.1) → (l ∉ L.map Prod.fst → v l = 0) →
    ∀ p ∈ bump l L, p.2 = if p.1 = l then v p.1 + 1 else v p.1 := by
  intro L
  induction L with
  | nil =>
    intro _ _ hv0 p hp
    simp only [bump, List.mem_singleton] at hp
    subst hp
    rw [if_pos rfl, hv0 (by simp)]
  | cons q L ih =>
    intro hnd hv hv0 p hp
    obtain ⟨k, c⟩ := q
    rw [List.map_cons, List.nodup_cons] at hnd
    rw [bump] at hp
    by_cases hk : k = l
    · rw [if_pos hk] at hp
      rcases List.mem_cons.mp hp with hp | hp
      · subst hp
        show c + 1 = if k = l then v k + 1 else v k
        rw [if_pos hk]
        have h2 : c = v k := hv (k, c) (List.mem_cons_self _ _)
        omega
      · have hpl : p.1 ≠ l := by
          intro hc
          have hp1 : p.1 ∈ L.map Prod.fst := List.mem_map_of_mem Prod.fst hp
          rw [hc, ← hk] at hp1
          exact hnd.1 hp1
        rw [if_neg hpl]
        exact hv p (List.mem_cons_of_mem _ hp)
    · rw [if_neg hk] at hp
      rcases List.mem_cons.mp hp with hp | hp
      · subst hp
        show c = if k = l then v k + 1 else v k
        rw [if_neg hk]
        exact hv (k, c) (List.mem_cons_self _ _)
      · refine ih hnd.2 (fun q hq => hv q (List.mem_cons_of_mem _ hq)) ?_ p hp
        intro hl
        refine hv0 ?_
        simp only [List.map_cons, List.mem_cons]
        rintro (hc | hc)
        · exact hk (by simpa using hc.symm)
        · exact hl hc

theorem bump_good (ds : List Str) (L : List (Str × Nat)) (l : Str)
    (hg : GoodLangs ds L) : GoodLangs (ds ++ [l]) (bump l L) := by
  obtain ⟨hkeys, hvals⟩ := hg
  constructor
  · rw [bump_keys, hkeys, dedupFirst_append_singleton ds.length ds le_rfl l]
    by_cases hm : l ∈ ds
    · rw [if_pos ((mem_dedupFirst ds.length ds le_rfl l).mpr hm), if_pos hm,
        List.append_nil]
    · rw [if_neg (fun hc => hm ((mem_dedupFirst ds.length ds le_rfl l).mp hc)), if_neg hm]
  · intro p hp
    have hnd : (L.map Prod.fst).Nodup := by
      rw [hkeys]
      exact dedupFirst_nodup ds.length ds le_rfl
    have hv0 : l ∉ L.map Prod.fst → ds.count l = 0 := by
      intro hl
      refine List.count_eq_zero.mpr (fun hc => hl ?_)
      rw [hkeys]
      exact (mem_dedupFirst ds.length ds le_rfl l).mpr hc
    have hval := bump_vals l ds.count L hnd hvals hv0 p hp
    rw [hval, List.count_append, List.count_singleton]
    by_cases hpl : p.1 = l
    · simp [hpl]
    · have h2 : ¬ l = p.1 := fun h => hpl h.symm
      simp [hpl, h2]

theorem fold_good : ∀ (paths : List Str) (acc : List (Str × Nat)) (ds : List Str),
    GoodLangs ds acc →
    GoodLangs (ds ++ detectedLangs paths) (paths.foldl langStep acc) := by
  intro paths
  induction paths with
  | nil =>
    intro acc ds hg
    simpa [detectedLangs] using hg
  | cons p paths ih =>
    intro acc ds hg
    rw [List.foldl_cons]
    cases hd : get_language_from_path p with
    | none =>
      have hdl : detectedLangs (p :: paths) = detectedLangs paths := by
        simp [detectedLangs, List.filterMap_cons, hd]
      have hstep : langStep acc p = acc := by rw [langStep, hd]
      rw [hdl, hstep]
      exact ih acc ds hg
    | some l =>
      have hdl : detectedLangs (p :: paths) = l :: detectedLangs paths := by
        simp [detectedLangs, List.filterMap_cons, hd]
      have hstep : langStep acc p = bump l acc := by rw [langStep, hd]
      rw [hdl, hstep]
      have := ih (bump l acc) (ds ++ [l]) (bump_good ds acc l hg)
      simpa using this

theorem foldl_pickMax_spec : ∀ (xs : List (Str × Nat)) (x : Str × Nat),
    ∃ pre post,
      x :: xs = pre ++ (xs.foldl pickMax x) :: post ∧
      (∀ y ∈ pre, y.2 < (xs.foldl pickMax x).2) ∧
      (∀ y ∈ x :: xs, y.2 ≤ (xs.foldl pickMax x).2) := by
  intro xs
  induction xs with
  | nil =>
    intro x
    exact ⟨[], [], by simp, by simp, by simp⟩
  | cons y ys ih =>
    intro x
    rw [List.foldl_cons]
    by_cases hgt : y.2 > x.2
    · have hpick : pickMax x y = y := by rw [pickMax, if_pos hgt]
      rw [hpick]
      obtain ⟨pre, post, hdec, hpre, hall⟩ := ih y
      refine ⟨x :: pre, post, by rw [List.cons_append, ← hdec], ?_, ?_⟩
      · intro z hz
        rcases List.mem_cons.mp hz with hz | hz
        · subst hz
          exact lt_of_lt_of_le hgt (hall y (List.mem_cons_self _ _))
        · exact hpre z hz
      · intro z hz
        rcases List.mem_cons.mp hz with hz | hz
        · subst hz
          exact le_of_lt (lt_of_lt_of_le hgt (hall y (List.mem_cons_self _ _)))
        · exact hall z hz
    · have hpick : pickMax x y = x := by rw [pickMax, if_neg hgt]
      rw [hpick]
      obtain ⟨pre, post, hdec, hpre, hall⟩ := ih x
      cases pre with
      | nil =>
        simp only [List.nil_append] at hdec
        injection hdec with hx hpost
        refine ⟨[], y :: post, ?_, by simp, ?_⟩
        · rw [List.nil_append, ← hx, hpost]
        · intro z hz
          rcases List.mem_cons.mp hz with hz | hz
          · rw [hz]
            exact hall x (List.mem_cons_self _ _)
          · rcases List.mem_cons.mp hz with hz | hz
            · rw [hz]
              exact le_trans (le_of_not_lt hgt) (hall x (List.mem_cons_self _ _))
            · exact hall z (List.mem_cons_of_mem _ hz)
      | cons q pre =>
        rw [List.cons_append] at hdec
        injection hdec with hq hys
        refine ⟨x :: y :: pre, post, ?_, ?_, ?_⟩
        · rw [List.cons_append, List.cons_append, ← hys]
        · intro z hz
          have hx2 : x.2 < (ys.foldl pickMax x).2 := by
            have := hpre q (List.mem_cons_self _ _)
            rwa [← hq] at this
          rcases List.mem_cons.mp hz with hz | hz
          · rw [hz]
            exact hx2
          · rcases List.mem_cons.mp hz with hz | hz
            · rw [hz]
              exact lt_of_le_of_lt (le_of_not_lt hgt) hx2
            · exact hpre z (List.mem_cons_of_mem _ hz)
        · intro z hz
          rcases List.mem_cons.mp hz with hz | hz
          · rw [hz]
            exact hall x (List.mem_cons_self _ _)
          · rcases List.mem_cons.mp hz with hz | hz
            · rw [hz]
              exact le_trans (le_of_not_lt hgt) (hall x (List.mem_cons_self _ _))
            · exact hall z (List.mem_cons_of_mem _ hz)

/-- Index of the first occurrence of a string in a list (the position of
first encounter while scanning in order). -/
def firstIdx (a : Str) : List Str → Nat
  | [] => 0
  | x :: xs => if x = a then 0 else firstIdx a xs + 1

theorem firstIdx_cons_self (a : Str) (l : List Str) : firstIdx a (a :: l) = 0 := by
  simp [firstIdx]

theorem firstIdx_cons_ne (a x : Str) (l : List Str) (h : x ≠ a) :
    firstIdx a (x :: l) = firstIdx a l + 1 := by
  simp [firstIdx, h]

theorem firstIdx_filter_lt (q : Str → Bool) : ∀ (xs : List Str) (a b : Str),
    a ∈ xs.filter q → b ∈ xs.filter q →
    firstIdx a (xs.filter q) < firstIdx b (xs.filter q) →
    firstIdx a xs < firstIdx b xs := by
  intro xs
  induction xs with
  | nil => intro a b ha _ _; simp at ha
  | cons x xs ih =>
    intro a b ha hb hlt
    by_cases hq : q x = true
    · rw [List.filter_cons, if_pos hq] at ha hb hlt
      by_cases hax : a = x
      · subst hax
        have hba : b ≠ a := by
          intro hba
          subst hba
          omega
        rw [firstIdx_cons_self, firstIdx_cons_ne b a xs (fun h => hba h.symm)]
        exact Nat.succ_pos _
      · by_cases hbx : b = x
        · subst hbx
          rw [firstIdx_cons_self, firstIdx_cons_ne a b (xs.filter q)
            (fun h => hax h.symm)] at hlt
          omega
        · rw [firstIdx_cons_ne a x (xs.filter q) (fun h => hax h.symm),
            firstIdx_cons_ne b x (xs.filter q) (fun h => hbx h.symm)] at hlt
          have ha' : a ∈ xs.filter q := by
            rcases List.mem_cons.mp ha with h | h
            · exact absurd h hax
            · exact h
          have hb' : b ∈ xs.filter q := by
            rcases List.mem_cons.mp hb with h | h
            · exact absurd h hbx
            · exact h
          rw [firstIdx_cons_ne a x xs (fun h => hax h.symm),
            firstIdx_cons_ne b x xs (fun h => hbx h.symm)]
          exact Nat.succ_lt_succ (ih a b ha' hb' (Nat.lt_of_succ_lt_succ hlt))
    · rw [List.filter_cons, if_neg hq] at ha hb hlt
      have hax : a ≠ x := fun h => hq (h ▸ (List.mem_filter.mp ha).2)
      have hbx : b ≠ x := fun h => hq (h ▸ (List.mem_filter.mp hb).2)
      rw [firstIdx_cons_ne a x xs (fun h => hax h.symm),
        firstIdx_cons_ne b x xs (fun h => hbx h.symm)]
      exact Nat.succ_lt_succ (ih a b ha hb hlt)

theorem dedupFirst_pairwise : ∀ (n : Nat) (ds : List Str), ds.length ≤ n →
    (dedupFirst ds).Pairwise (fun a b => firstIdx a ds < firstIdx b ds) := by
  intro n
  induction n with
  | zero =>
    intro ds h
    have hds : ds = [] := List.eq_nil_of_length_eq_zero (by omega)
    subst hds
    simp [dedupFirst_nil]
  | succ n ih =>
    intro ds h
    cases ds with
    | nil => simp [dedupFirst_nil]
    | cons x xs =>
      have hlen : (xs.filter (fun y => y != x)).length ≤ n :=
        le_trans (List.length_filter_le _ _) (by simpa using h)
      rw [dedupFirst_cons, List.pairwise_cons]
      constructor
      · intro b hb
        have hbf : b ∈ xs.filter (fun y => y != x) :=
          (mem_dedupFirst n _ hlen b).mp hb
        have hbx : b ≠ x := by
          have := (List.mem_filter.mp hbf).2
          simpa [bne_iff_ne] using this
        rw [firstIdx_cons_self, firstIdx_cons_ne b x xs (fun h => hbx h.symm)]
        exact Nat.succ_pos _
      · have hpw := ih _ hlen
        refine hpw.imp_of_mem ?_
        intro a b hma hmb hlt
        have haf : a ∈ xs.filter (fun y => y != x) :=
          (mem_dedupFirst n _ hlen a).mp hma
        have hbf : b ∈ xs.filter (fun y => y != x) :=
          (mem_dedupFirst n _ hlen b).mp hmb
        have hax : a ≠ x := by
          have := (List.mem_filter.mp haf).2
          simpa [bne_iff_ne] using this
        have hbx : b ≠ x := by
          have := (List.mem_filter.mp hbf).2
          simpa [bne_iff_ne] using this
        have hxs := firstIdx_filter_lt (fun y => y != x) xs a b haf hbf hlt
        rw [firstIdx_cons_ne a x xs (fun h => hax h.symm),
          firstIdx_cons_ne b x xs (fun h => hbx h.symm)]
        exact Nat.succ_lt_succ hxs

/-- C9: `detect_common_language` returns nothing exactly when no path
yields a language (in particular on the empty list); when it returns a
language, that language occurs among the per-path detection results with
maximal occurrence count, and it was first encountered (in path scan
order) no later than any other language of the same maximal count; and on
`["a.py", "b.py", "c.js"]` it returns `"python"`. -/
theorem detect_common_spec (paths : List Str) :
    (detect_common_language paths = none ↔
      ∀ p ∈ paths, get_language_from_path p = none) ∧
    (∀ lang, detect_common_language paths = some lang →
      lang ∈ detectedLangs paths ∧
      (∀ l', (detectedLangs paths).count l' ≤ (detectedLangs paths).count lang) ∧
      (∀ l', (detectedLangs paths).count l' = (detectedLangs paths).count lang →
        firstIdx lang (detectedLangs paths) ≤ firstIdx l' (detectedLangs paths))) ∧
    detect_common_language ["a.py".data, "b.py".data, "c.js".data]
      = some ("python".data) := by
  by_cases hp : paths = []
  · subst hp
    refine ⟨by simp [detect_common_language], ?_, by decide⟩
    intro lang hl
    rw [detect_common_language, if_pos rfl] at hl
    exact absurd hl (by simp)
  · have hgood : GoodLangs (detectedLangs paths) (paths.foldl langStep []) := by
      have := fold_good paths [] [] ⟨by rw [dedupFirst_nil]; rfl, by simp⟩
      simpa using this
    obtain ⟨hkeys, hvals⟩ := hgood
    refine ⟨?_, ?_, by decide⟩
    · rw [detect_common_language, if_neg hp]
      constructor
      · intro hnone
        by_cases hl : paths.foldl langStep [] = []
        · rw [hl] at hkeys
          have hdd : dedupFirst (detectedLangs paths) = [] := by simpa using hkeys.symm
          have hdn : detectedLangs paths = [] := (dedupFirst_eq_nil_iff _).mp hdd
          exact List.filterMap_eq_nil_iff.mp hdn
        · rw [if_neg hl] at hnone
          cases hfoo : paths.foldl langStep [] with
          | nil => exact absurd hfoo hl
          | cons x xs =>
            rw [hfoo, maxByCount] at hnone
            exact absurd hnone (by simp)
      · intro hall
        have hdsnil : detectedLangs paths = [] := List.filterMap_eq_nil_iff.mpr hall
        have hlnil : paths.foldl langStep [] = [] := by
          have hm : (paths.foldl langStep []).map Prod.fst = [] := by
            rw [hkeys, hdsnil, dedupFirst_nil]
          simpa using hm
        rw [if_pos hlnil]
    · intro lang hl
      rw [detect_common_language, if_neg hp] at hl
      by_cases hlz : paths.foldl langStep [] = []
      · rw [if_pos hlz] at hl
        exact absurd hl (by simp)
      · rw [if_neg hlz] at hl
        cases hfoo : paths.foldl langStep [] with
        | nil => exact absurd hfoo hlz
        | cons x xs =>
          rw [hfoo] at hl hkeys hvals
          rw [maxByCount] at hl
          have hlang : (xs.foldl pickMax x).1 = lang := by
            simpa using hl
          obtain ⟨pre, post, hdec, hpre, hall⟩ := foldl_pickMax_spec xs x
          have hzmem : xs.foldl pickMax x ∈ x :: xs := by
            rw [hdec]
            exact List.mem_append_right _ (List.mem_cons_self _ _)
          have hzval : (xs.foldl pickMax x).2
              = (detectedLangs paths).count (xs.foldl pickMax x).1 :=
            hvals _ hzmem
          rw [hlang] at hzval
          have hlang_mem : lang ∈ detectedLangs paths := by
            have hm : (xs.foldl pickMax x).1 ∈ (x :: xs).map Prod.fst :=
              List.mem_map_of_mem _ hzmem
            rw [hkeys, hlang] at hm
            exact (mem_dedupFirst (detectedLangs paths).length _ le_rfl lang).mp hm
          refine ⟨hlang_mem, ?_, ?_⟩
          · intro l'
            by_cases hl' : l' ∈ detectedLangs paths
            · have hmm : l' ∈ dedupFirst (detectedLangs paths) :=
                (mem_dedupFirst _ _ le_rfl l').mpr hl'
              rw [← hkeys] at hmm
              obtain ⟨pq, hpq, hpq1⟩ := List.mem_map.mp hmm
              have hv := hvals pq hpq
              have hle := hall pq hpq
              rw [hpq1] at hv
              omega
            · rw [List.count_eq_zero.mpr hl']
              exact Nat.zero_le _
          · intro l' hcnt
            by_cases heq : l' = lang
            · rw [heq]
            · have hpos : 0 < (detectedLangs paths).count lang :=
                List.count_pos_iff.mpr hlang_mem
              have hl'mem : l' ∈ detectedLangs paths :=
                List.count_pos_iff.mp (by omega)
              have hmm : l' ∈ dedupFirst (detectedLangs paths) :=
                (mem_dedupFirst _ _ le_rfl l').mpr hl'mem
              rw [← hkeys] at hmm
              obtain ⟨pq, hpq, hpq1⟩ := List.mem_map.mp hmm
              have hv := hvals pq hpq
              rw [hpq1] at hv
              rw [hdec] at hpq
              rcases List.mem_append.mp hpq with hpq' | hpq'
              · exfalso
                have := hpre pq hpq'
                omega
              · rcases List.mem_cons.mp hpq' with hpq' | hpq'
                · exfalso
                  apply heq
                  rw [← hpq1, hpq', hlang]
                · have hpw := dedupFirst_pairwise (detectedLangs paths).length _ le_rfl
                  rw [← hkeys, hdec, List.map_append] at hpw
                  have h2 := (List.pairwise_append.mp hpw).2.1
                  rw [List.map_cons] at h2
                  have h3 := (List.pairwise_cons.mp h2).1
                  have h4 := h3 l' (by rw [← hpq1]; exact List.mem_map_of_mem _ hpq')
                  rw [hlang] at h4
                  exact le_of_lt h4

/-- Witness for C9: the none-characterization at the empty path list,
via the theorem. -/
theorem detect_common_spec_witness :
    detect_common_language ([] : List Str) = none ↔
      ∀ p ∈ ([] : List Str), get_language_from_path p = none :=
  (detect_common_spec []).1

/-- Replay one diff line against the running cursors: succeeds exactly
when the line's recorded numbers are the cursor values dictated by its
kind, and advances the cursors accordingly. -/
def lineStep (o n : Nat) (l : DiffLine) : Option (Nat × Nat) :=
  match l.kind with
  | LineKind.context =>
    if l.oldNum = some o ∧ l.newNum = some n then some (o + 1, n + 1) else none
  | LineKind.addition =>
    if l.oldNum = none ∧ l.newNum = some n then some (o, n + 1) else none
  | LineKind.deletion =>
    if l.oldNum = some o ∧ l.newNum = none then some (o + 1, n) else none

/-- Replay a whole line list from the given cursors; `some` of the final
cursors exactly when every line's recorded numbers match the replay. -/
def replayEnd (o n : Nat) : List DiffLine → Option (Nat × Nat)
  | [] => some (o, n)
  | l :: ls =>
    match lineStep o n l with
    | some (o', n') => replayEnd o' n' ls
    | none => none

/-- Shape facts the parser guarantees for every stored line: no embedded
newline, and the content cannot re-trigger a `+++`/`---` header when the
marker is restored. -/
def lineShape (l : DiffLine) : Prop :=
  '\n' ∉ l.content ∧
  (l.kind = LineKind.addition → ¬ begins ("++ ".data) l.content = true) ∧
  (l.kind = LineKind.deletion → ¬ begins ("-- ".data) l.content = true)

def hunkShape (h : DiffHunk) : Prop := ∀ l ∈ h.lines, lineShape l

def pathOk (p : Str) : Prop := '\n' ∉ p ∧ '\t' ∉ p

/-- Everything the parser guarantees about an emitted file. -/
def fileInv (f : DiffFile) : Prop :=
  pathOk f.oldPath ∧ pathOk f.newPath ∧
  ∀ h ∈ f.hunks, (replayEnd h.oldStart h.newStart h.lines).isSome ∧ hunkShape h

/-- The parser-state invariant maintained line by line. -/
def stInv (st : PState) : Prop :=
  (∀ f ∈ st.files, fileInv f) ∧
  (∀ f, st.cur = some f → fileInv f) ∧
  (∀ p, st.oldP = some p → pathOk p) ∧
  (∀ h, st.hs = HunkState.live h → hunkShape h ∧
    replayEnd h.oldStart h.newStart h.lines = some (st.oldNum, st.newNum))

theorem takeWhile_all {α : Type} (p : α → Bool) : ∀ (xs r : List α),
    (∀ c ∈ xs, p c = true) → (xs ++ r).takeWhile p = xs ++ r.takeWhile p := by
  intro xs r
  induction xs with
  | nil => intro _; simp
  | cons x xs ih =>
    intro h
    rw [List.cons_append, List.takeWhile_cons, if_pos (h x (List.mem_cons_self _ _)),
      ih (fun c hc => h c (List.mem_cons_of_mem _ hc))]
    rfl

theorem dropWhile_all {α : Type} (p : α → Bool) : ∀ (xs r : List α),
    (∀ c ∈ xs, p c = true) → (xs ++ r).dropWhile p = r.dropWhile p := by
  intro xs r
  induction xs with
  | nil => intro _; simp
  | cons x xs ih =>
    intro h
    rw [List.cons_append, List.dropWhile_cons, if_pos (h x (List.mem_cons_self _ _)),
      ih (fun c hc => h c (List.mem_cons_of_mem _ hc))]

theorem takeWhile_self {α : Type} (p : α → Bool) : ∀ (xs : List α),
    (∀ c ∈ xs, p c = true) → xs.takeWhile p = xs := by
  intro xs h
  have := takeWhile_all p xs [] h
  simpa using this

theorem mem_of_mem_takeWhile {α : Type} (p : α → Bool) : ∀ (xs : List α) (c : α),
    c ∈ xs.takeWhile p → c ∈ xs ∧ p c = true := by
  intro xs
  induction xs with
  | nil => intro c h; simp at h
  | cons x xs ih =>
    intro c h
    rw [List.takeWhile_cons] at h
    by_cases hp : p x = true
    · rw [if_pos hp] at h
      rcases List.mem_cons.mp h with h | h
      · subst h
        exact ⟨List.mem_cons_self _ _, hp⟩
      · obtain ⟨h1, h2⟩ := ih c h
        exact ⟨List.mem_cons_of_mem _ h1, h2⟩
    · rw [if_neg hp] at h
      simp at h

theorem matchOldFile_path {line p : Str} (h : matchOldFile line = some p) :
    '\t' ∉ p ∧ ('\n' ∉ line → '\n' ∉ p) := by
  rw [matchOldFile] at h
  by_cases hb : begins ("--- ".data) line = true
  · rw [if_pos hb] at h
    simp only [Option.some.injEq] at h
    subst h
    constructor
    · intro hmem
      have := (mem_of_mem_takeWhile _ _ _ hmem).2
      simp at this
    · intro hnl hmem
      apply hnl
      have h1 := (mem_of_mem_takeWhile _ _ _ hmem).1
      by_cases ha : begins ("a/".data) (line.drop 4) = true
      · rw [if_pos ha] at h1
        exact List.drop_subset _ _ (List.drop_subset _ _ h1)
      · rw [if_neg ha] at h1
        exact List.drop_subset _ _ h1
  · rw [if_neg hb] at h
    exact absurd h (by simp)

theorem matchNewFile_path {line p : Str} (h : matchNewFile line = some p) :
    '\t' ∉ p ∧ ('\n' ∉ line → '\n' ∉ p) := by
  rw [matchNewFile] at h
  by_cases hb : begins ("+++ ".data) line = true
  · rw [if_pos hb] at h
    simp only [Option.some.injEq] at h
    subst h
    constructor
    · intro hmem
      have := (mem_of_mem_takeWhile _ _ _ hmem).2
      simp at this
    · intro hnl hmem
      apply hnl
      have h1 := (mem_of_mem_takeWhile _ _ _ hmem).1
      by_cases ha : begins ("b/".data) (line.drop 4) = true
      · rw [if_pos ha] at h1
        exact List.drop_subset _ _ (List.drop_subset _ _ h1)
      · rw [if_neg ha] at h1
        exact List.drop_subset _ _ h1
  · rw [if_neg hb] at h
    exact absurd h (by simp)

theorem splitLinesC_no_newline : ∀ (s : Str), ∀ l ∈ splitLinesC s, '\n' ∉ l := by
  intro s
  induction s with
  | nil => intro l hl; simp [splitLinesC] at hl
  | cons c cs ih =>
    intro l hl
    rw [splitLinesC] at hl
    by_cases hc : c = '\n'
    · rw [if_pos hc] at hl
      rcases List.mem_cons.mp hl with hl | hl
      · subst hl; simp
      · exact ih l hl
    · rw [if_neg hc] at hl
      cases hsp : splitLinesC cs with
      | nil =>
        rw [hsp] at hl
        simp only [List.mem_singleton] at hl
        subst hl
        intro hm
        rcases List.mem_singleton.mp hm with h
        exact hc h.symm
      | cons l0 ls =>
        rw [hsp] at hl
        rcases List.mem_cons.mp hl with hl | hl
        · subst hl
          intro hm
          rcases List.mem_cons.mp hm with hm | hm
          · exact hc hm.symm
          · exact ih l0 (hsp ▸ List.mem_cons_self _ _) hm
        · exact ih l (hsp ▸ List.mem_cons_of_mem _ hl)

theorem processLine_header (st : PState) (line : Str) (h : isFileHeader line = true) :
    processLine st line =
      ⟨st.files ++ (attachHunk st).toList, none, none, none, HunkState.hnone,
        st.oldNum, st.newNum⟩ := by
  unfold processLine
  rw [if_pos h]

theorem processLine_old (st : PState) (line p : Str)
    (h0 : ¬ isFileHeader line = true) (h1 : matchOldFile line = some p) :
    processLine st line = { st with oldP := some p } := by
  unfold processLine
  rw [if_neg h0, h1]

theorem processLine_new_some (st : PState) (line p op : Str)
    (h0 : ¬ isFileHeader line = true) (h1 : matchOldFile line = none)
    (h2 : matchNewFile line = some p) (h3 : st.oldP = some op) :
    processLine st line = { st with
      newP := some p
      cur := some ⟨op, p, []⟩
      hs := if st.hs = HunkState.hnone then HunkState.hnone else HunkState.dead } := by
  unfold processLine
  rw [if_neg h0, h1, h2, h3]

theorem processLine_new_none (st : PState) (line p : Str)
    (h0 : ¬ isFileHeader line = true) (h1 : matchOldFile line = none)
    (h2 : matchNewFile line = some p) (h3 : st.oldP = none) :
    processLine st line = { st with newP := some p } := by
  unfold processLine
  rw [if_neg h0, h1, h2, h3]

theorem processLine_hunk_open (st : PState) (line : Str) (a b c d : Nat)
    (h0 : ¬ isFileHeader line = true) (h1 : matchOldFile line = none)
    (h2 : matchNewFile line = none) (h3 : matchHunk line = some (a, b, c, d))
    (h4 : st.cur.isSome = true) :
    processLine st line = { st with
      cur := attachHunk st
      hs := HunkState.live ⟨a, b, c, d, []⟩
      oldNum := a
      newNum := c } := by
  unfold processLine
  simp only [if_neg h0, h1, h2, h3, if_pos h4]

theorem processLine_hunk_nocur (st : PState) (line : Str) (a b c d : Nat)
    (h0 : ¬ isFileHeader line = true) (h1 : matchOldFile line = none)
    (h2 : matchNewFile line = none) (h3 : matchHunk line = some (a, b, c, d))
    (h4 : ¬ st.cur.isSome = true) :
    processLine st line = st := by
  unfold processLine
  simp only [if_neg h0, h1, h2, h3, if_neg h4]

theorem processLine_nomatch (st : PState) (line : Str)
    (h0 : ¬ isFileHeader line = true) (h1 : matchOldFile line = none)
    (h2 : matchNewFile line = none) (h3 : matchHunk line = none)
    (h4 : st.hs = HunkState.hnone) :
    processLine st line = st := by
  unfold processLine
  simp only [if_neg h0, h1, h2, h3, h4]

theorem processLine_dead (st : PState) (line : Str)
    (h0 : ¬ isFileHeader line = true) (h1 : matchOldFile line = none)
    (h2 : matchNewFile line = none) (h3 : matchHunk line = none)
    (h4 : st.hs = HunkState.dead) :
    (processLine st line).files = st.files ∧ (processLine st line).cur = st.cur ∧
    (processLine st line).oldP = st.oldP ∧
    (processLine st line).hs = HunkState.dead := by
  unfold processLine
  simp only [if_neg h0, h1, h2, h3, h4]
  split
  · exact ⟨rfl, rfl, rfl, rfl⟩
  · exact ⟨rfl, rfl, rfl, rfl⟩
  · exact ⟨rfl, rfl, rfl, rfl⟩
  · exact ⟨rfl, rfl, rfl, h4⟩

theorem processLine_live_add (st : PState) (rest : Str) (hk : DiffHunk)
    (h2 : matchNewFile ('+' :: rest) = none) (h4 : st.hs = HunkState.live hk) :
    processLine st ('+' :: rest) = { st with
      hs := HunkState.live
        { hk with lines := hk.lines ++ [⟨rest, LineKind.addition, none, some st.newNum⟩] }
      newNum := st.newNum + 1 } := by
  unfold processLine
  simp only [if_neg (show ¬ isFileHeader ('+' :: rest) = true from by
      rw [isFileHeader_plus]; exact Bool.false_ne_true),
    matchOldFile_plus, h2, matchHunk_plus, h4]

theorem processLine_live_del (st : PState) (rest : Str) (hk : DiffHunk)
    (h1 : matchOldFile ('-' :: rest) = none) (h4 : st.hs = HunkState.live hk) :
    processLine st ('-' :: rest) = { st with
      hs := HunkState.live
        { hk with lines := hk.lines ++ [⟨rest, LineKind.deletion, some st.oldNum, none⟩] }
      oldNum := st.oldNum + 1 } := by
  unfold processLine
  simp only [if_neg (show ¬ isFileHeader ('-' :: rest) = true from by
      rw [isFileHeader_dash]; exact Bool.false_ne_true),
    h1, matchNewFile_dash, matchHunk_dash, h4]

theorem processLine_live_ctx (st : PState) (rest : Str) (hk : DiffHunk)
    (h4 : st.hs = HunkState.live hk) :
    processLine st (' ' :: rest) = { st with
      hs := HunkState.live
        { hk with lines := hk.lines ++ [⟨rest, LineKind.context, some st.oldNum, some st.newNum⟩] }
      oldNum := st.oldNum + 1
      newNum := st.newNum + 1 } := by
  unfold processLine
  simp only [if_neg (show ¬ isFileHeader (' ' :: rest) = true from by
      rw [isFileHeader_space]; exact Bool.false_ne_true),
    matchOldFile_space, matchNewFile_space, matchHunk_space, h4]

theorem processLine_live_other (st : PState) (ch : Char) (rest : Str) (hk : DiffHunk)
    (h0 : ¬ isFileHeader (ch :: rest) = true) (h1 : matchOldFile (ch :: rest) = none)
    (h2 : matchNewFile (ch :: rest) = none) (h3 : matchHunk (ch :: rest) = none)
    (h4 : st.hs = HunkState.live hk)
    (hne : ch ≠ '+' ∧ ch ≠ '-' ∧ ch ≠ ' ') :
    processLine st (ch :: rest) = st := by
  unfold processLine
  simp only [if_neg h0, h1, h2, h3, h4]
  split
  · next heq => exact absurd (List.head_eq_of_cons_eq heq.symm).symm hne.1
  · next heq => exact absurd (List.head_eq_of_cons_eq heq.symm).symm hne.2.1
  · next heq => exact absurd (List.head_eq_of_cons_eq heq.symm).symm hne.2.2
  · rfl

theorem processLine_live_nil (st : PState) (hk : DiffHunk)
    (h4 : st.hs = HunkState.live hk) :
    processLine st [] = st := by
  unfold processLine
  have h0 : ¬ isFileHeader [] = true := by rw [show isFileHeader [] = false from rfl]; simp
  simp only [if_neg h0, show matchOldFile [] = none from rfl,
    show matchNewFile [] = none from rfl, show matchHunk [] = none from rfl, h4]

theorem attachHunk_cases (st : PState) (g : DiffFile) (h : attachHunk st = some g) :
    ∃ f0, st.cur = some f0 ∧
      (g = f0 ∨ ∃ hk, st.hs = HunkState.live hk ∧
        g = { f0 with hunks := f0.hunks ++ [hk] }) := by
  unfold attachHunk at h
  cases hc : st.cur with
  | none =>
    rw [hc] at h
    cases hs : st.hs with
    | hnone => rw [hs] at h; exact absurd h (by simp)
    | live hk => rw [hs] at h; exact absurd h (by simp)
    | dead => rw [hs] at h; exact absurd h (by simp)
  | some f0 =>
    rw [hc] at h
    cases hs : st.hs with
    | hnone =>
      rw [hs] at h
      simp only [Option.some.injEq] at h
      exact ⟨f0, rfl, Or.inl h.symm⟩
    | live hk =>
      rw [hs] at h
      simp only [Option.some.injEq] at h
      exact ⟨f0, rfl, Or.inr ⟨hk, rfl, h.symm⟩⟩
    | dead =>
      rw [hs] at h
      simp only [Option.some.injEq] at h
      exact ⟨f0, rfl, Or.inl h.symm⟩

theorem replayEnd_snoc : ∀ (ls : List DiffLine) (o n o' n' : Nat) (l : DiffLine)
    (r : Nat × Nat), replayEnd o n ls = some (o', n') → lineStep o' n' l = some r →
    replayEnd o n (ls ++ [l]) = some r := by
  intro ls
  induction ls with
  | nil =>
    intro o n o' n' l r h1 h2
    simp only [replayEnd, Option.some.injEq, Prod.mk.injEq] at h1
    rw [List.nil_append, replayEnd, h1.1, h1.2, h2]
    rfl
  | cons x xs ih =>
    intro o n o' n' l r h1 h2
    rw [replayEnd] at h1
    rw [List.cons_append, replayEnd]
    cases hx : lineStep o n x with
    | none => rw [hx] at h1; exact absurd h1 (by simp)
    | some q =>
      rw [hx] at h1
      exact ih q.1 q.2 o' n' l r h1 h2

theorem matchNewFile_plusplus (rest : Str) (h : begins ("++ ".data) rest = true) :
    (matchNewFile ('+' :: rest)).isSome = true := by
  rw [matchNewFile, if_pos (show begins ("+++ ".data) ('+' :: rest) = true from h)]
  rfl

theorem matchOldFile_dashdash (rest : Str) (h : begins ("-- ".data) rest = true) :
    (matchOldFile ('-' :: rest)).isSome = true := by
  rw [matchOldFile, if_pos (show begins ("--- ".data) ('-' :: rest) = true from h)]
  rfl

theorem attachHunk_fileInv (st : PState) (hinv : stInv st) (g : DiffFile)
    (h : attachHunk st = some g) : fileInv g := by
  obtain ⟨hfiles, hcur, holdP, hlive⟩ := hinv
  obtain ⟨f0, hc, hg⟩ := attachHunk_cases st g h
  rcases hg with hg | ⟨hk, hhs, hg⟩
  · exact hg ▸ hcur f0 hc
  · subst hg
    obtain ⟨hp1, hp2, hh⟩ := hcur f0 hc
    refine ⟨hp1, hp2, ?_⟩
    intro h2 hh2
    rcases List.mem_append.mp hh2 with hm | hm
    · exact hh h2 hm
    · simp only [List.mem_singleton] at hm
      subst hm
      obtain ⟨hsh, hre⟩ := hlive h2 hhs
      exact ⟨by rw [hre]; rfl, hsh⟩

theorem stInv_step (st : PState) (line : Str) (hnl : '\n' ∉ line) (hinv : stInv st) :
    stInv (processLine st line) := by
  obtain ⟨hfiles, hcur, holdP, hlive⟩ := hinv
  by_cases h0 : isFileHeader line = true
  · rw [processLine_header st line h0]
    refine ⟨?_, by intro f hf; exact absurd hf (by simp), by simp, by simp⟩
    intro f hf
    rcases List.mem_append.mp hf with hf | hf
    · exact hfiles f hf
    · cases ha : attachHunk st with
      | none => rw [ha] at hf; exact absurd hf (by simp)
      | some g =>
        rw [ha] at hf
        simp only [Option.toList_some, List.mem_singleton] at hf
        subst hf
        exact attachHunk_fileInv st ⟨hfiles, hcur, holdP, hlive⟩ f ha
  · cases hmo : matchOldFile line with
    | some p =>
      rw [processLine_old st line p h0 hmo]
      refine ⟨hfiles, hcur, ?_, hlive⟩
      intro q hq
      simp only [Option.some.injEq] at hq
      subst hq
      obtain ⟨ht, hn⟩ := matchOldFile_path hmo
      exact ⟨hn hnl, ht⟩
    | none =>
      cases hmn : matchNewFile line with
      | some p =>
        cases hop : st.oldP with
        | some op =>
          rw [processLine_new_some st line p op h0 hmo hmn hop]
          refine ⟨hfiles, ?_, ?_, ?_⟩
          · intro f hf
            simp only [Option.some.injEq] at hf
            subst hf
            obtain ⟨ht, hn⟩ := matchNewFile_path hmn
            exact ⟨holdP op hop, ⟨hn hnl, ht⟩, by intro h2 hh2; exact absurd hh2 (by simp)⟩
          · intro q hq
            exact holdP q hq
          · intro h2 hh2
            by_cases hhs : st.hs = HunkState.hnone
            · rw [if_pos hhs] at hh2
              exact absurd hh2 (by simp)
            · rw [if_neg hhs] at hh2
              exact absurd hh2 (by simp)
        | none =>
          rw [processLine_new_none st line p h0 hmo hmn hop]
          exact ⟨hfiles, hcur, holdP, hlive⟩
      | none =>
        cases hmh : matchHunk line with
        | some q =>
          obtain ⟨a, b, c, d⟩ := q
          by_cases hcs : st.cur.isSome = true
          · rw [processLine_hunk_open st line a b c d h0 hmo hmn hmh hcs]
            refine ⟨hfiles, ?_, holdP, ?_⟩
            · intro f hf
              exact attachHunk_fileInv st ⟨hfiles, hcur, holdP, hlive⟩ f hf
            · intro h2 hh2
              simp only [HunkState.live.injEq] at hh2
              subst hh2
              refine ⟨by intro l hl; exact absurd hl (by simp), ?_⟩
              rfl
          · rw [processLine_hunk_nocur st line a b c d h0 hmo hmn hmh hcs]
            exact ⟨hfiles, hcur, holdP, hlive⟩
        | none =>
          cases hhs : st.hs with
          | hnone =>
            rw [processLine_nomatch st line h0 hmo hmn hmh hhs]
            exact ⟨hfiles, hcur, holdP, hlive⟩
          | dead =>
            obtain ⟨hd1, hd2, hd3, hd4⟩ := processLine_dead st line h0 hmo hmn hmh hhs
            refine ⟨?_, ?_, ?_, ?_⟩
            · rw [hd1]; exact hfiles
            · rw [hd2]; exact hcur
            · rw [hd3]; exact holdP
            · rw [hd4]; intro h2 hh2; exact absurd hh2 (by simp)
          | live hk =>
            cases line with
            | nil =>
              rw [processLine_live_nil st hk hhs]
              exact ⟨hfiles, hcur, holdP, hlive⟩
            | cons ch rest =>
              obtain ⟨hsh, hre⟩ := hlive hk hhs
              have hnlr : '\n' ∉ rest := fun hm => hnl (List.mem_cons_of_mem _ hm)
              by_cases hch1 : ch = '+'
              · subst hch1
                rw [processLine_live_add st rest hk hmn hhs]
                refine ⟨hfiles, hcur, holdP, ?_⟩
                intro h2 hh2
                simp only [HunkState.live.injEq] at hh2
                subst hh2
                constructor
                · intro l hl
                  rcases List.mem_append.mp hl with hm | hm
                  · exact hsh l hm
                  · simp only [List.mem_singleton] at hm
                    subst hm
                    refine ⟨hnlr, ?_, by intro hkind; exact absurd hkind (by simp)⟩
                    intro _ hb
                    have := matchNewFile_plusplus rest hb
                    rw [hmn] at this
                    exact absurd this (by simp)
                · refine replayEnd_snoc hk.lines hk.oldStart hk.newStart st.oldNum st.newNum
                    _ _ hre ?_
                  simp [lineStep]
              · by_cases hch2 : ch = '-'
                · subst hch2
                  rw [processLine_live_del st rest hk hmo hhs]
                  refine ⟨hfiles, hcur, holdP, ?_⟩
                  intro h2 hh2
                  simp only [HunkState.live.injEq] at hh2
                  subst hh2
                  constructor
                  · intro l hl
                    rcases List.mem_append.mp hl with hm | hm
                    · exact hsh l hm
                    · simp only [List.mem_singleton] at hm
                      subst hm
                      refine ⟨hnlr, by intro hkind; exact absurd hkind (by simp), ?_⟩
                      intro _ hb
                      have := matchOldFile_dashdash rest hb
                      rw [hmo] at this
                      exact absurd this (by simp)
                  · refine replayEnd_snoc hk.lines hk.oldStart hk.newStart st.oldNum st.newNum
                      _ _ hre ?_
                    simp [lineStep]
                · by_cases hch3 : ch = ' '
                  · subst hch3
                    rw [processLine_live_ctx st rest hk hhs]
                    refine ⟨hfiles, hcur, holdP, ?_⟩
                    intro h2 hh2
                    simp only [HunkState.live.injEq] at hh2
                    subst hh2
                    constructor
                    · intro l hl
                      rcases List.mem_append.mp hl with hm | hm
                      · exact hsh l hm
                      · simp only [List.mem_singleton] at hm
                        subst hm
                        exact ⟨hnlr, by intro hkind; exact absurd hkind (by simp),
                          by intro hkind; exact absurd hkind (by simp)⟩
                    · refine replayEnd_snoc hk.lines hk.oldStart hk.newStart st.oldNum st.newNum
                        _ _ hre ?_
                      simp [lineStep]
                  · rw [processLine_live_other st ch rest hk h0 hmo hmn hmh hhs
                      ⟨hch1, hch2, hch3⟩]
                    exact ⟨hfiles, hcur, holdP, hlive⟩

theorem stInv_fold : ∀ (lines : List Str) (st : PState),
    (∀ l ∈ lines, '\n' ∉ l) → stInv st → stInv (lines.foldl processLine st) := by
  intro lines
  induction lines with
  | nil => intro st _ h; exact h
  | cons l ls ih =>
    intro st hnl h
    rw [List.foldl_cons]
    exact ih (processLine st l) (fun x hx => hnl x (List.mem_cons_of_mem _ hx))
      (stInv_step st l (hnl l (List.mem_cons_self _ _)) h)

theorem stInv_init : stInv initState := by
  refine ⟨?_, ?_, ?_, ?_⟩
  · intro f hf; exact absurd hf (by simp [initState])
  · intro f hf; exact absurd hf (by simp [initState])
  · intro p hp; exact absurd hp (by simp [initState])
  · intro h hh; exact absurd hh (by simp [initState])

/-- Every file emitted by the parser satisfies the path and hunk
invariants. -/
theorem parse_fileInv (d : Str) : ∀ f ∈ parse_unified_diff d, fileInv f := by
  rw [parse_unified_diff]
  by_cases hd : d = []
  · rw [if_pos hd]
    intro f hf
    exact absurd hf (by simp)
  · rw [if_neg hd]
    intro f hf
    have hinv : stInv ((splitLinesC d).foldl processLine initState) :=
      stInv_fold (splitLinesC d) initState (splitLinesC_no_newline d) stInv_init
    obtain ⟨hfiles, hcur, holdP, hlive⟩ := hinv
    rcases List.mem_append.mp hf with hf | hf
    · exact hfiles f hf
    · cases ha : attachHunk ((splitLinesC d).foldl processLine initState) with
      | none => rw [ha] at hf; exact absurd hf (by simp)
      | some g =>
        rw [ha] at hf
        simp only [Option.toList_some, List.mem_singleton] at hf
        subst hf
        exact attachHunk_fileInv _ ⟨hfiles, hcur, holdP, hlive⟩ f ha

theorem replayEnd_shape : ∀ (ls : List DiffLine) (o n : Nat),
    (replayEnd o n ls).isSome = true → ∀ l ∈ ls,
      (l.kind = LineKind.context → l.oldNum.isSome = true ∧ l.newNum.isSome = true) ∧
      (l.kind = LineKind.addition → l.oldNum = none ∧ l.newNum.isSome = true) ∧
      (l.kind = LineKind.deletion → l.oldNum.isSome = true ∧ l.newNum = none) := by
  intro ls
  induction ls with
  | nil => intro o n _ l hl; exact absurd hl (by simp)
  | cons x xs ih =>
    intro o n hsome l hl
    rw [replayEnd] at hsome
    cases hx : lineStep o n x with
    | none => rw [hx] at hsome; exact absurd hsome (by simp)
    | some q =>
      rw [hx] at hsome
      rcases List.mem_cons.mp hl with hl | hl
      · subst hl
        rw [lineStep] at hx
        cases hk : l.kind with
        | context =>
          rw [hk] at hx
          by_cases hc : l.oldNum = some o ∧ l.newNum = some n
          · exact ⟨fun _ => ⟨by rw [hc.1]; rfl, by rw [hc.2]; rfl⟩,
              fun hkk => absurd hkk (by decide),
              fun hkk => absurd hkk (by decide)⟩
          · rw [if_neg hc] at hx
            exact absurd hx (by simp)
        | addition =>
          rw [hk] at hx
          by_cases hc : l.oldNum = none ∧ l.newNum = some n
          · exact ⟨fun hkk => absurd hkk (by decide),
              fun _ => ⟨hc.1, by rw [hc.2]; rfl⟩,
              fun hkk => absurd hkk (by decide)⟩
          · rw [if_neg hc] at hx
            exact absurd hx (by simp)
        | deletion =>
          rw [hk] at hx
          by_cases hc : l.oldNum = some o ∧ l.newNum = none
          · exact ⟨fun hkk => absurd hkk (by decide),
              fun hkk => absurd hkk (by decide),
              fun _ => ⟨by rw [hc.1]; rfl, hc.2⟩⟩
          · rw [if_neg hc] at hx
            exact absurd hx (by simp)
      · exact ih q.1 q.2 hsome l hl

/-- C4: for every hunk of every parsed file, replaying the hunk's lines
with an old cursor starting at `old_start` and a new cursor starting at
`new_start` — advancing old on context/deletion and new on
context/addition — reproduces every line's recorded numbers exactly
(`replayEnd` succeeds, each step demanding equality with the recorded
numbers); and the absent number field is determined solely by the kind:
additions lack the old number, deletions lack the new number, context
lines carry both. -/
theorem parse_line_numbers (d : Str) (f : DiffFile) (h : DiffHunk)
    (hf : f ∈ parse_unified_diff d) (hh : h ∈ f.hunks) :
    (replayEnd h.oldStart h.newStart h.lines).isSome = true ∧
    ∀ l ∈ h.lines,
      (l.kind = LineKind.context → l.oldNum.isSome = true ∧ l.newNum.isSome = true) ∧
      (l.kind = LineKind.addition → l.oldNum = none ∧ l.newNum.isSome = true) ∧
      (l.kind = LineKind.deletion → l.oldNum.isSome = true ∧ l.newNum = none) := by
  obtain ⟨_, _, hhunks⟩ := parse_fileInv d f hf
  obtain ⟨hre, _⟩ := hhunks h hh
  exact ⟨hre, replayEnd_shape h.lines h.oldStart h.newStart hre⟩

/-- Witness for C4 at the specification's scenario diff. -/
theorem parse_line_numbers_witness :
    (replayEnd (1 : Nat) 1 [⟨"a".data, LineKind.context, some 1, some 1⟩,
      ⟨"b".data, LineKind.addition, none, some 2⟩,
      ⟨"c".data, LineKind.context, some 2, some 3⟩]).isSome = true ∧
    ∀ l ∈ ([⟨"a".data, LineKind.context, some 1, some 1⟩,
      ⟨"b".data, LineKind.addition, none, some 2⟩,
      ⟨"c".data, LineKind.context, some 2, some 3⟩] : List DiffLine),
      (l.kind = LineKind.context → l.oldNum.isSome = true ∧ l.newNum.isSome = true) ∧
      (l.kind = LineKind.addition → l.oldNum = none ∧ l.newNum.isSome = true) ∧
      (l.kind = LineKind.deletion → l.oldNum.isSome = true ∧ l.newNum = none) :=
  parse_line_numbers
    ("diff --git a/x.py b/x.py\n--- a/x.py\n+++ b/x.py\n@@ -1,2 +1,3 @@\n a\n+b\n c\n".data)
    ⟨"x.py".data, "x.py".data,
      [⟨1, 2, 1, 3, [⟨"a".data, LineKind.context, some 1, some 1⟩,
        ⟨"b".data, LineKind.addition, none, some 2⟩,
        ⟨"c".data, LineKind.context, some 2, some 3⟩]⟩]⟩
    ⟨1, 2, 1, 3, [⟨"a".data, LineKind.context, some 1, some 1⟩,
      ⟨"b".data, LineKind.addition, none, some 2⟩,
      ⟨"c".data, LineKind.context, some 2, some 3⟩]⟩
    (by decide) (by decide)

theorem begins_append (p r : Str) : begins p (p ++ r) = true := by
  induction p with
  | nil => rfl
  | cons c cs ih => simp [begins, ih]

theorem drop_pre (p r : Str) (n : Nat) (h : p.length = n) : (p ++ r).drop n = r := by
  rw [← h]
  exact List.drop_left p r

theorem natToCharsAux_fuel : ∀ (k fuel n : Nat), n ≤ k → n < fuel →
    natToCharsAux fuel n = natToCharsAux (n + 1) n := by
  intro k
  induction k with
  | zero =>
    intro fuel n hk hf
    have hn : n = 0 := by omega
    subst hn
    cases fuel with
    | zero => omega
    | succ f => simp [natToCharsAux]
  | succ k ih =>
    intro fuel n hk hf
    cases fuel with
    | zero => omega
    | succ f =>
      by_cases h10 : n < 10
      · simp only [natToCharsAux]
        rw [if_pos h10, if_pos h10]
      · simp only [natToCharsAux]
        rw [if_neg h10, if_neg h10]
        have h2 : n / 10 < n := Nat.div_lt_self (by omega) (by omega)
        have hdiv : n / 10 ≤ k := by omega
        rw [ih f (n / 10) hdiv (by omega), ih n (n / 10) hdiv h2]

theorem natToChars_eq (n : Nat) : natToChars n =
    if n < 10 then [Char.ofNat (48 + n)]
    else natToChars (n / 10) ++ [Char.ofNat (48 + n % 10)] := by
  rw [natToChars]
  by_cases h10 : n < 10
  · simp only [natToCharsAux]
    rw [if_pos h10, if_pos h10]
  · simp only [natToCharsAux]
    rw [if_neg h10, if_neg h10, natToChars]
    have h2 : n / 10 < n := Nat.div_lt_self (by omega) (by omega)
    rw [natToCharsAux_fuel n n (n / 10) (le_of_lt h2) h2]

theorem digitChar_val (k : Nat) (h : k < 10) : (Char.ofNat (48 + k)).toNat = 48 + k := by
  interval_cases k <;> decide

theorem digitChar_isDigit (k : Nat) (h : k < 10) :
    isDigitChar (Char.ofNat (48 + k)) = true := by
  interval_cases k <;> decide

theorem natToChars_digits : ∀ (b n : Nat), n ≤ b → ∀ c ∈ natToChars n,
    isDigitChar c = true := by
  intro b
  induction b with
  | zero =>
    intro n hn c hc
    have h0 : n = 0 := by omega
    subst h0
    rw [natToChars_eq, if_pos (by omega)] at hc
    simp only [List.mem_singleton] at hc
    subst hc
    decide
  | succ b ih =>
    intro n hn c hc
    rw [natToChars_eq] at hc
    by_cases h10 : n < 10
    · rw [if_pos h10] at hc
      simp only [List.mem_singleton] at hc
      subst hc
      exact digitChar_isDigit n h10
    · rw [if_neg h10] at hc
      rcases List.mem_append.mp hc with hc | hc
      · have h2 : n / 10 < n := Nat.div_lt_self (by omega) (by omega)
        exact ih (n / 10) (by omega) c hc
      · simp only [List.mem_singleton] at hc
        subst hc
        exact digitChar_isDigit (n % 10) (Nat.mod_lt n (by omega))

theorem natToChars_ne_nil (n : Nat) : natToChars n ≠ [] := by
  rw [natToChars_eq]
  by_cases h10 : n < 10
  · rw [if_pos h10]; simp
  · rw [if_neg h10]; simp

theorem natToChars_val : ∀ (b n : Nat), n ≤ b → valDigits (natToChars n) = n := by
  intro b
  induction b with
  | zero =>
    intro n hn
    have h0 : n = 0 := by omega
    subst h0
    rw [natToChars_eq, if_pos (by omega)]
    decide
  | succ b ih =>
    intro n hn
    rw [natToChars_eq]
    by_cases h10 : n < 10
    · rw [if_pos h10]
      show 0 * 10 + ((Char.ofNat (48 + n)).toNat - 48) = n
      rw [digitChar_val n h10]
      omega
    · rw [if_neg h10]
      have h2 : n / 10 < n := Nat.div_lt_self (by omega) (by omega)
      rw [valDigits, List.foldl_append]
      have hv : List.foldl (fun a c => a * 10 + (c.toNat - 48)) 0 (natToChars (n / 10))
          = n / 10 := ih (n / 10) (by omega)
      rw [hv]
      show (n / 10) * 10 + ((Char.ofNat (48 + n % 10)).toNat - 48) = n
      rw [digitChar_val (n % 10) (Nat.mod_lt n (by omega))]
      omega

theorem readNat_pre (n : Nat) (r : Str)
    (h1 : r.takeWhile isDigitChar = []) (h2 : r.dropWhile isDigitChar = r) :
    readNat (natToChars n ++ r) = some (n, r) := by
  have hd := natToChars_digits n n le_rfl
  simp only [readNat]
  rw [takeWhile_all isDigitChar _ _ hd, dropWhile_all isDigitChar _ _ hd, h1, h2,
    List.append_nil, if_neg (natToChars_ne_nil n), natToChars_val n n le_rfl]

theorem takeWhile_nondigit (c : Char) (x : Str) (h : isDigitChar c = false) :
    ((c :: x) : Str).takeWhile isDigitChar = [] := by
  simp [List.takeWhile_cons, h]

theorem dropWhile_nondigit (c : Char) (x : Str) (h : isDigitChar c = false) :
    ((c :: x) : Str).dropWhile isDigitChar = c :: x := by
  simp [List.dropWhile_cons, h]

theorem readCount_comma (m : Nat) (r : Str)
    (h1 : r.takeWhile isDigitChar = []) (h2 : r.dropWhile isDigitChar = r) :
    readCount (',' :: (natToChars m ++ r)) = some (m, r) := by
  simp only [readCount]
  rw [readNat_pre m r h1 h2]

theorem matchHunk_header (h : DiffHunk) :
    matchHunk (hunkHeaderChars h) = some (h.oldStart, h.oldCount, h.newStart, h.newCount) := by
  have hD : ∀ E : Str, (" +".data ++ E : Str) = ' ' :: ('+' :: E) := fun _ => rfl
  have hG : (" @@".data : Str) = ' ' :: ('@' :: ('@' :: [])) := rfl
  rw [hunkHeaderChars, matchHunk,
    if_pos (begins_append ("@@ -".data) _),
    drop_pre ("@@ -".data) _ 4 rfl,
    readNat_pre h.oldStart _ (takeWhile_nondigit ',' _ (by decide))
      (dropWhile_nondigit ',' _ (by decide))]
  simp only []
  rw [readCount_comma h.oldCount _
    (by rw [hD]; exact takeWhile_nondigit ' ' _ (by decide))
    (by rw [hD]; exact dropWhile_nondigit ' ' _ (by decide))]
  simp only []
  rw [if_pos (begins_append (" +".data) _), drop_pre (" +".data) _ 2 rfl,
    readNat_pre h.newStart _ (takeWhile_nondigit ',' _ (by decide))
      (dropWhile_nondigit ',' _ (by decide))]
  simp only []
  rw [readCount_comma h.newCount _ (by decide) (by decide)]
  simp only []
  rw [if_pos (by simpa using begins_append (" @@".data) ([] : Str))]

theorem matchNewFile_plus_content (content : Str)
    (h : ¬ begins ("++ ".data) content = true) :
    matchNewFile ('+' :: content) = none := by
  rw [matchNewFile,
    if_neg (show ¬ begins ("+++ ".data) ('+' :: content) = true from h)]

theorem matchOldFile_dash_content (content : Str)
    (h : ¬ begins ("-- ".data) content = true) :
    matchOldFile ('-' :: content) = none := by
  rw [matchOldFile,
    if_neg (show ¬ begins ("--- ".data) ('-' :: content) = true from h)]

theorem takeWhile_notab (p : Str) (h : '\t' ∉ p) :
    p.takeWhile (fun c => c ≠ '\t') = p := by
  refine takeWhile_self _ p ?_
  intro c hc
  exact decide_eq_true (fun hc2 => h (hc2 ▸ hc))

theorem matchOldFile_render (p : Str) (ha : ¬ begins ("a/".data) p = true)
    (ht : '\t' ∉ p) : matchOldFile ("--- ".data ++ p) = some p := by
  simp only [matchOldFile]
  rw [if_pos (begins_append ("--- ".data) _), drop_pre ("--- ".data) _ 4 rfl,
    if_neg ha, takeWhile_notab p ht]

theorem matchNewFile_render (p : Str) (hb : ¬ begins ("b/".data) p = true)
    (ht : '\t' ∉ p) : matchNewFile ("+++ ".data ++ p) = some p := by
  simp only [matchNewFile]
  rw [if_pos (begins_append ("+++ ".data) _), drop_pre ("+++ ".data) _ 4 rfl,
    if_neg hb, takeWhile_notab p ht]

theorem splitLinesC_line (l : Str) : ∀ (rest : Str), '\n' ∉ l →
    splitLinesC (l ++ '\n' :: rest) = l :: splitLinesC rest := by
  induction l with
  | nil =>
    intro rest _
    rw [List.nil_append, splitLinesC, if_pos rfl]
  | cons c cs ih =>
    intro rest h
    have hc : ¬ c = '\n' := fun hcn => h (hcn ▸ List.mem_cons_self _ _)
    rw [List.cons_append, splitLinesC, if_neg hc,
      ih rest (fun hm => h (List.mem_cons_of_mem _ hm))]

theorem splitLinesC_join : ∀ (ls : List Str), ls ≠ [] → (∀ l ∈ ls, '\n' ∉ l) →
    splitLinesC (joinLines ls ++ ['\n']) = ls := by
  intro ls
  induction ls with
  | nil => intro h _; exact absurd rfl h
  | cons l ls ih =>
    intro _ hnl
    cases ls with
    | nil =>
      rw [joinLines]
      exact splitLinesC_line l [] (hnl l (List.mem_cons_self _ _))
    | cons l2 ls2 =>
      rw [joinLines, List.append_assoc, List.cons_append]
      rw [splitLinesC_line l _ (hnl l (List.mem_cons_self _ _))]
      rw [ih (by simp) (fun x hx => hnl x (List.mem_cons_of_mem _ hx))]

theorem natToChars_no_newline (n : Nat) : '\n' ∉ natToChars n := by
  intro hm
  have := natToChars_digits n n le_rfl '\n' hm
  exact absurd this (by decide)

theorem hunkHeaderChars_no_newline (h : DiffHunk) : '\n' ∉ hunkHeaderChars h := by
  rw [hunkHeaderChars]
  intro hm
  rcases List.mem_append.mp hm with hm | hm
  · exact absurd hm (by decide)
  rcases List.mem_append.mp hm with hm | hm
  · exact natToChars_no_newline _ hm
  rcases List.mem_cons.mp hm with hm | hm
  · exact absurd hm (by decide)
  rcases List.mem_append.mp hm with hm | hm
  · exact natToChars_no_newline _ hm
  rcases List.mem_append.mp hm with hm | hm
  · exact absurd hm (by decide)
  rcases List.mem_append.mp hm with hm | hm
  · exact natToChars_no_newline _ hm
  rcases List.mem_cons.mp hm with hm | hm
  · exact absurd hm (by decide)
  rcases List.mem_append.mp hm with hm | hm
  · exact natToChars_no_newline _ hm
  · exact absurd hm (by decide)

theorem fileLines_no_newline (f : DiffFile) (hinv : fileInv f) :
    ∀ l ∈ fileLines f, '\n' ∉ l := by
  obtain ⟨⟨hold, _⟩, ⟨hnew, _⟩, hhunks⟩ := hinv
  intro l hl
  rw [fileLines] at hl
  rcases List.mem_cons.mp hl with hl | hl
  · subst hl
    intro hm
    rcases List.mem_append.mp hm with hm | hm
    · exact absurd hm (by decide)
    · exact hold hm
  rcases List.mem_cons.mp hl with hl | hl
  · subst hl
    intro hm
    rcases List.mem_append.mp hm with hm | hm
    · exact absurd hm (by decide)
    · exact hnew hm
  · obtain ⟨grp, hgrp, hlg⟩ := List.mem_flatten.mp hl
    obtain ⟨hk, hhk, hgeq⟩ := List.mem_map.mp hgrp
    subst hgeq
    rw [hunkLines] at hlg
    rcases List.mem_cons.mp hlg with hlg | hlg
    · subst hlg
      exact hunkHeaderChars_no_newline hk
    · obtain ⟨dl, hdl, hdlr⟩ := List.mem_map.mp hlg
      subst hdlr
      obtain ⟨_, hsh⟩ := (hhunks hk hhk)
      obtain ⟨hnlc, _, _⟩ := hsh dl hdl
      rw [renderLine]
      intro hm
      rcases List.mem_cons.mp hm with hm | hm
      · cases hkind : dl.kind <;> rw [hkind] at hm <;> exact absurd hm (by decide)
      · exact hnlc hm

theorem fold_renderLines : ∀ (ls : List DiffLine) (st : PState) (hk : DiffHunk)
    (o' n' : Nat), st.hs = HunkState.live hk → (∀ l ∈ ls, lineShape l) →
    replayEnd st.oldNum st.newNum ls = some (o', n') →
    List.foldl processLine st (ls.map renderLine) =
      { st with
        hs := HunkState.live { hk with lines := hk.lines ++ ls }
        oldNum := o'
        newNum := n' } := by
  intro ls
  induction ls with
  | nil =>
    intro st hk o' n' hhs _ hre
    simp only [replayEnd, Option.some.injEq, Prod.mk.injEq] at hre
    obtain ⟨h1, h2⟩ := hre
    subst h1
    subst h2
    obtain ⟨files, oldP, newP, cur, hs, oldNum, newNum⟩ := st
    simp only at hhs
    subst hhs
    simp
  | cons l ls ih =>
    intro st hk o' n' hhs hsh hre
    obtain ⟨cont, kind, onum, nnum⟩ := l
    rw [replayEnd] at hre
    cases hstep : lineStep st.oldNum st.newNum ⟨cont, kind, onum, nnum⟩ with
    | none => rw [hstep] at hre; exact absurd hre (by simp)
    | some q =>
      rw [hstep] at hre
      rw [List.map_cons, List.foldl_cons]
      obtain ⟨hnlc, hadd, hdel⟩ := hsh _ (List.mem_cons_self _ _)
      have hshtl : ∀ l ∈ ls, lineShape l :=
        fun x hx => hsh x (List.mem_cons_of_mem _ hx)
      cases kind with
      | addition =>
        rw [lineStep] at hstep
        simp only at hstep
        by_cases hc : (onum = none ∧ nnum = some st.newNum)
        · obtain ⟨hc1, hc2⟩ := hc
          subst hc1
          subst hc2
          rw [if_pos ⟨rfl, rfl⟩] at hstep
          simp only [Option.some.injEq] at hstep
          subst hstep
          have hrl : renderLine ⟨cont, LineKind.addition, none, some st.newNum⟩
              = '+' :: cont := rfl
          rw [hrl, processLine_live_add st cont hk
            (matchNewFile_plus_content cont (hadd rfl)) hhs]
          rw [ih _ _ o' n' rfl hshtl hre]
          simp [List.append_assoc]
        · rw [if_neg hc] at hstep
          exact absurd hstep (by simp)
      | deletion =>
        rw [lineStep] at hstep
        simp only at hstep
        by_cases hc : (onum = some st.oldNum ∧ nnum = none)
        · obtain ⟨hc1, hc2⟩ := hc
          subst hc1
          subst hc2
          rw [if_pos ⟨rfl, rfl⟩] at hstep
          simp only [Option.some.injEq] at hstep
          subst hstep
          have hrl : renderLine ⟨cont, LineKind.deletion, some st.oldNum, none⟩
              = '-' :: cont := rfl
          rw [hrl, processLine_live_del st cont hk
            (matchOldFile_dash_content cont (hdel rfl)) hhs]
          rw [ih _ _ o' n' rfl hshtl hre]
          simp [List.append_assoc]
        · rw [if_neg hc] at hstep
          exact absurd hstep (by simp)
      | context =>
        rw [lineStep] at hstep
        simp only at hstep
        by_cases hc : (onum = some st.oldNum ∧ nnum = some st.newNum)
        · obtain ⟨hc1, hc2⟩ := hc
          subst hc1
          subst hc2
          rw [if_pos ⟨rfl, rfl⟩] at hstep
          simp only [Option.some.injEq] at hstep
          subst hstep
          have hrl : renderLine ⟨cont, LineKind.context, some st.oldNum, some st.newNum⟩
              = ' ' :: cont := rfl
          rw [hrl, processLine_live_ctx st cont hk hhs]
          rw [ih _ _ o' n' rfl hshtl hre]
          simp [List.append_assoc]
        · rw [if_neg hc] at hstep
          exact absurd hstep (by simp)

theorem attachHunk_update (st : PState) (g : DiffFile) (hk : DiffHunk)
    (o n : Nat) (hg : attachHunk st = some g) :
    attachHunk { st with
      cur := attachHunk st
      hs := HunkState.live hk
      oldNum := o
      newNum := n } = some { g with hunks := g.hunks ++ [hk] } := by
  rw [hg]
  simp only [attachHunk]

theorem fold_hunkLines : ∀ (hl : List DiffHunk) (st : PState) (g : DiffFile),
    attachHunk st = some g →
    (∀ h ∈ hl, (replayEnd h.oldStart h.newStart h.lines).isSome = true ∧ hunkShape h) →
    ∃ st', List.foldl processLine st ((hl.map hunkLines).flatten) = st' ∧
      st'.files = st.files ∧
      attachHunk st' = some ⟨g.oldPath, g.newPath, g.hunks ++ hl⟩ := by
  intro hl
  induction hl with
  | nil =>
    intro st g hg _
    refine ⟨st, by simp, rfl, ?_⟩
    rw [hg, List.append_nil]
  | cons h hl ih =>
    intro st g hg hinv
    rw [List.map_cons, List.flatten_cons, List.foldl_append, hunkLines, List.foldl_cons]
    have hcur : st.cur.isSome = true := by
      obtain ⟨f0, hc, _⟩ := attachHunk_cases st g hg
      rw [hc]
      rfl
    rw [processLine_hunk_open st (hunkHeaderChars h) h.oldStart h.oldCount h.newStart
      h.newCount
      (by rw [show isFileHeader (hunkHeaderChars h) = false from isFileHeader_at _]; simp)
      (show matchOldFile (hunkHeaderChars h) = none from matchOldFile_at _)
      (show matchNewFile (hunkHeaderChars h) = none from matchNewFile_at _)
      (matchHunk_header h) hcur]
    obtain ⟨hre, hsh⟩ := hinv h (List.mem_cons_self _ _)
    obtain ⟨pr, hpr⟩ := Option.isSome_iff_exists.mp hre
    rw [fold_renderLines h.lines _ ⟨h.oldStart, h.oldCount, h.newStart, h.newCount, []⟩
      pr.1 pr.2 rfl hsh hpr]
    have hg2 : attachHunk { st with
        cur := attachHunk st
        hs := HunkState.live
          ⟨h.oldStart, h.oldCount, h.newStart, h.newCount, [] ++ h.lines⟩
        oldNum := pr.1
        newNum := pr.2 } = some ⟨g.oldPath, g.newPath, g.hunks ++ [h]⟩ :=
      attachHunk_update st g ⟨h.oldStart, h.oldCount, h.newStart, h.newCount, [] ++ h.lines⟩
        pr.1 pr.2 hg
    obtain ⟨st3, hst3, hfiles3, hat3⟩ := ih _ ⟨g.oldPath, g.newPath, g.hunks ++ [h]⟩ hg2
      (fun x hx => hinv x (List.mem_cons_of_mem _ hx))
    refine ⟨st3, hst3, by rw [hfiles3], ?_⟩
    rw [hat3]
    simp

theorem renderAll_single_ne_nil (f : DiffFile) : renderAll [f] ≠ [] := by
  rw [renderAll_singleton]
  intro h
  rcases List.append_eq_nil.mp h with ⟨h1, _⟩
  exact generate_file_diff_ne_nil f h1

theorem parse_render_single (f : DiffFile) (hinv : fileInv f)
    (ha : ¬ begins ("a/".data) f.oldPath = true)
    (hb : ¬ begins ("b/".data) f.newPath = true) :
    parse_unified_diff (renderAll [f]) = [f] := by
  have hsplit : splitLinesC (renderAll [f]) = fileLines f := by
    rw [renderAll_singleton, generate_file_diff]
    exact splitLinesC_join (fileLines f) (by rw [fileLines]; simp)
      (fileLines_no_newline f hinv)
  obtain ⟨⟨honl, hotab⟩, ⟨hnnl, hntab⟩, hhunks⟩ := hinv
  simp only [parse_unified_diff]
  rw [if_neg (renderAll_single_ne_nil f), hsplit, fileLines,
    List.foldl_cons, List.foldl_cons]
  rw [processLine_old initState ("--- ".data ++ f.oldPath) f.oldPath
    (by rw [show isFileHeader ("--- ".data ++ f.oldPath) = false from isFileHeader_dash _]
        simp)
    (matchOldFile_render f.oldPath ha hotab)]
  rw [processLine_new_some { initState with oldP := some f.oldPath }
    ("+++ ".data ++ f.newPath) f.newPath f.oldPath
    (by rw [show isFileHeader ("+++ ".data ++ f.newPath) = false from isFileHeader_plus _]
        simp)
    (show matchOldFile ("+++ ".data ++ f.newPath) = none from matchOldFile_plus _)
    (matchNewFile_render f.newPath hb hntab) rfl]
  obtain ⟨st3, hst3, hfiles3, hat3⟩ := fold_hunkLines f.hunks
    { { initState with oldP := some f.oldPath } with
      newP := some f.newPath
      cur := some ⟨f.oldPath, f.newPath, []⟩
      hs := if { initState with oldP := some f.oldPath }.hs = HunkState.hnone
        then HunkState.hnone else HunkState.dead }
    ⟨f.oldPath, f.newPath, []⟩ (by rfl) hhunks
  rw [hst3, hat3, hfiles3]
  rfl

/-- C2 counterexample: a well-formed two-file git diff (the first file
inside directory `a/`).  Re-parsing the rendered output both drops the
first file (render omits the `diff --git` separators that flush files) and
re-strips the `a/` prefix, so the round trip does not reproduce the model. -/
theorem roundtrip_counterexample :
    parse_unified_diff (renderAll (parse_unified_diff
      (("diff --git a/a/x b/a/x\n--- a/a/x\n+++ b/a/x\n@@ -1,1 +1,1 @@\n c\n" ++
        "diff --git a/y b/y\n--- y\n+++ y\n@@ -1,1 +1,1 @@\n d\n").data)))
      ≠ parse_unified_diff
      (("diff --git a/a/x b/a/x\n--- a/a/x\n+++ b/a/x\n@@ -1,1 +1,1 @@\n c\n" ++
        "diff --git a/y b/y\n--- y\n+++ y\n@@ -1,1 +1,1 @@\n d\n").data) := by
  decide

/-- C2 (amended): for an input whose parse yields at most one file, with
that file's old path not starting with `a/` and its new path not starting
with `b/`, re-parsing the rendering reproduces the parsed model exactly
(paths, hunk headers, line kinds, contents and numbers). -/
theorem roundtrip_single_file (d : Str)
    (hlen : (parse_unified_diff d).length ≤ 1)
    (hpaths : ∀ f ∈ parse_unified_diff d,
      ¬ begins ("a/".data) f.oldPath = true ∧ ¬ begins ("b/".data) f.newPath = true) :
    parse_unified_diff (renderAll (parse_unified_diff d)) = parse_unified_diff d := by
  cases hp : parse_unified_diff d with
  | nil => rfl
  | cons f fs =>
    have hf : f ∈ parse_unified_diff d := by
      rw [hp]
      exact List.mem_cons_self _ _
    have hfs : fs = [] := by
      rw [hp] at hlen
      simp only [List.length_cons] at hlen
      exact List.eq_nil_of_length_eq_zero (by omega)
    subst hfs
    obtain ⟨hpa, hpb⟩ := hpaths f hf
    exact parse_render_single f (parse_fileInv d f hf) hpa hpb

/-- Witness for C2 (amended) at a concrete single-file diff. -/
theorem roundtrip_single_file_witness :
    parse_unified_diff (renderAll (parse_unified_diff
      ("--- x\n+++ x\n@@ -1,2 +1,3 @@\n a\n+b\n c\n".data)))
      = parse_unified_diff ("--- x\n+++ x\n@@ -1,2 +1,3 @@\n a\n+b\n c\n".data) :=
  roundtrip_single_file ("--- x\n+++ x\n@@ -1,2 +1,3 @@\n a\n+b\n c\n".data)
    (by decide) (by decide)

theorem mem_insertRanked (x z : DiffFile × Nat) (L : List (DiffFile × Nat))
    (h : z ∈ insertRanked x L) : z = x ∨ z ∈ L := by
  induction L with
  | nil =>
    rw [insertRanked] at h
    exact Or.inl (List.mem_singleton.mp h)
  | cons y ys ih =>
    rw [insertRanked] at h
    by_cases hc : x.2 ≥ y.2
    · rw [if_pos hc] at h
      rcases List.mem_cons.mp h with h | h
      · exact Or.inl h
      · exact Or.inr h
    · rw [if_neg hc] at h
      rcases List.mem_cons.mp h with h | h
      · exact Or.inr (h ▸ List.mem_cons_self _ _)
      · rcases ih h with h | h
        · exact Or.inl h
        · exact Or.inr (List.mem_cons_of_mem _ h)

theorem insertRanked_pairwise (x : DiffFile × Nat) (L : List (DiffFile × Nat))
    (h : L.Pairwise (fun a b => b.2 ≤ a.2)) :
    (insertRanked x L).Pairwise (fun a b => b.2 ≤ a.2) := by
  induction L with
  | nil =>
    rw [insertRanked]
    exact List.pairwise_singleton _ _
  | cons y ys ih =>
    rcases List.pairwise_cons.mp h with ⟨hy, hys⟩
    rw [insertRanked]
    by_cases hc : x.2 ≥ y.2
    · rw [if_pos hc]
      refine List.pairwise_cons.mpr ⟨?_, h⟩
      intro z hz
      rcases List.mem_cons.mp hz with hz | hz
      · rw [hz]; exact hc
      · exact le_trans (hy z hz) hc
    · rw [if_neg hc]
      refine List.pairwise_cons.mpr ⟨?_, ih hys⟩
      intro z hz
      rcases mem_insertRanked x z ys hz with hz | hz
      · rw [hz]; omega
      · exact hy z hz

theorem insertRanked_filter (x : DiffFile × Nat) (L : List (DiffFile × Nat)) (c : Nat) :
    (insertRanked x L).filter (fun p => p.2 == c)
      = (if x.2 = c then [x] else []) ++ L.filter (fun p => p.2 == c) := by
  induction L with
  | nil =>
    rw [insertRanked]
    by_cases hx : x.2 = c
    · simp [List.filter_cons, hx]
    · simp [List.filter_cons, hx]
  | cons y ys ih =>
    rw [insertRanked]
    by_cases hc : x.2 ≥ y.2
    · rw [if_pos hc]
      by_cases hx : x.2 = c
      · simp [List.filter_cons, hx]
      · simp [List.filter_cons, hx]
    · rw [if_neg hc]
      have hlt : x.2 < y.2 := by omega
      by_cases hy : y.2 = c
      · have hx : ¬ x.2 = c := by omega
        simp [List.filter_cons, hy, hx, ih]
      · simp [List.filter_cons, hy, ih]

theorem insertRanked_ne_nil (x : DiffFile × Nat) (L : List (DiffFile × Nat)) :
    insertRanked x L ≠ [] := by
  cases L with
  | nil =>
    rw [insertRanked]
    exact List.cons_ne_nil _ _
  | cons y ys =>
    rw [insertRanked]
    by_cases hc : x.2 ≥ y.2
    · rw [if_pos hc]
      exact List.cons_ne_nil _ _
    · rw [if_neg hc]
      exact List.cons_ne_nil _ _

theorem rankFiles_pairwise (l : List (DiffFile × Nat)) :
    (rankFiles l).Pairwise (fun a b => b.2 ≤ a.2) := by
  induction l with
  | nil => exact List.Pairwise.nil
  | cons x xs ih => exact insertRanked_pairwise x (rankFiles xs) ih

theorem rankFiles_filter (l : List (DiffFile × Nat)) (c : Nat) :
    (rankFiles l).filter (fun p => p.2 == c) = l.filter (fun p => p.2 == c) := by
  induction l with
  | nil => rfl
  | cons x xs ih =>
    have h1 : rankFiles (x :: xs) = insertRanked x (rankFiles xs) := rfl
    rw [h1, insertRanked_filter, ih, List.filter_cons]
    by_cases hx : x.2 = c
    · simp [hx]
    · simp [hx]

theorem rankFiles_ne_nil (l : List (DiffFile × Nat)) (h : l ≠ []) :
    rankFiles l ≠ [] := by
  cases l with
  | nil => exact absurd rfl h
  | cons x xs => exact insertRanked_ne_nil x (rankFiles xs)

theorem strategy2_ne_nil (reduced : List DiffFile) (maxTokens : Nat) (cnt : Str → Nat)
    (h : reduced ≠ []) : strategy2 reduced maxTokens cnt ≠ [] := by
  have hrank : rankFiles (reduced.map (fun f => (f, changeCount f))) ≠ [] := by
    apply rankFiles_ne_nil
    intro hmap
    exact h (List.map_eq_nil_iff.mp hmap)
  cases hsel : selectFiles cnt maxTokens
      ((rankFiles (reduced.map (fun f => (f, changeCount f)))).map Prod.fst) 0 with
  | nil =>
    cases hr : rankFiles (reduced.map (fun f => (f, changeCount f))) with
    | nil => exact absurd hr hrank
    | cons best rest =>
      rw [hr] at hsel
      simp only [strategy2, hr, hsel]
      exact generate_file_diff_ne_nil best.1
  | cons f fs =>
    simp only [strategy2, hsel]
    intro hnil
    rw [renderAll_eq_nil_iff] at hnil
    exact List.cons_ne_nil f fs hnil

/-- **C1.** When the input diff exceeds the token budget and its Strategy-1
context-thinned render still exceeds the budget (while the empty render
fits, as the real token count of the empty string is zero),
`optimize_diff_context` returns exactly the Strategy-2 result on the
reduced files: the ranked list is sorted by descending addition+deletion
count with equal counts kept in encounter order (stated as a count-wise
filter identity), files are walked in that order including one only when
it keeps the running total within budget, and the returned string is never
empty — no error value exists in the embedding, so no failure is raised. -/
theorem optimize_over_budget (d : Str) (maxTokens : Nat) (cnt : Str → Nat)
    (hempty : cnt [] ≤ maxTokens)
    (h1 : ¬ cnt d ≤ maxTokens)
    (h2 : ¬ cnt (renderAll ((parse_unified_diff d).map reduceFile)) ≤ maxTokens) :
    optimize_diff_context d maxTokens cnt
        = strategy2 ((parse_unified_diff d).map reduceFile) maxTokens cnt ∧
    (rankFiles (((parse_unified_diff d).map reduceFile).map
        (fun f => (f, changeCount f)))).Pairwise (fun a b => b.2 ≤ a.2) ∧
    (∀ c, (rankFiles (((parse_unified_diff d).map reduceFile).map
          (fun f => (f, changeCount f)))).filter (fun p => p.2 == c)
        = ((((parse_unified_diff d).map reduceFile).map
          (fun f => (f, changeCount f)))).filter (fun p => p.2 == c)) ∧
    optimize_diff_context d maxTokens cnt ≠ [] := by
  have heq : optimize_diff_context d maxTokens cnt
      = strategy2 ((parse_unified_diff d).map reduceFile) maxTokens cnt := by
    rw [optimize_diff_context]
    simp only [if_neg h1, if_neg h2]
  have hred : (parse_unified_diff d).map reduceFile ≠ [] := by
    intro hnil
    rw [hnil] at h2
    have hz : renderAll ([] : List DiffFile) = [] := rfl
    rw [hz] at h2
    exact h2 hempty
  refine ⟨heq, rankFiles_pairwise _, fun c => rankFiles_filter _ c, ?_⟩
  rw [heq]
  exact strategy2_ne_nil _ maxTokens cnt hred

/-- Witness for C1 at a concrete over-budget diff, with the token counter
instantiated to the string length and a budget of one. -/
theorem optimize_over_budget_witness :
    optimize_diff_context ("--- x\n+++ x\n@@ -1,1 +1,1 @@\n+z\n".data) 1
        (fun s => s.length)
      = strategy2 ((parse_unified_diff
          ("--- x\n+++ x\n@@ -1,1 +1,1 @@\n+z\n".data)).map reduceFile) 1
        (fun s => s.length) ∧
    optimize_diff_context ("--- x\n+++ x\n@@ -1,1 +1,1 @@\n+z\n".data) 1
        (fun s => s.length) ≠ [] := by
  have h := optimize_over_budget ("--- x\n+++ x\n@@ -1,1 +1,1 @@\n+z\n".data) 1
    (fun s => s.length) (by decide) (by decide) (by decide)
  exact ⟨h.1, h.2.2.2⟩

end K8sReviewer
